import Mathlib

/-!
Shallow embedding of the costaeres resource store (capyloon/costaeres).

Conventions used throughout this development:
* Rust `String` values that undergo Unicode processing (resource names, query
  strings, fts text) are modelled as `Str := List Nat`, a list of Unicode code
  points; UTF-8 byte strings (the level at which `fts.rs` slices) are
  `List Nat` of byte values produced by `strBytes`.
* Rust machine integers are modelled as `Nat`/`Int`; where u32 overflow can
  occur the code's wrapping semantics is written explicitly with `% 2 ^ 32`.
* `chrono::DateTime<Utc>` timestamps are modelled as `Int` microseconds;
  `Duration::num_days` truncates toward zero, which is `Int.tdiv`.
* SQLite tables are modelled as lists of rows in insertion order; a
  transaction is a candidate `IndexState` value that replaces the committed
  one only on commit.
* The blob store (`ResourceStore` trait) is abstracted by a `StoreBehavior`
  record giving the outcome of each blob call, plus the container child-list
  blobs written by `update_default_variant_from_slice`, which are the only
  blob-side state any claim observes.
-/

namespace Costaeres

/-- Decidable equality for `Except`, used to evaluate operation outcomes on
concrete inputs. -/
instance {ε α : Type _} [DecidableEq ε] [DecidableEq α] :
    DecidableEq (Except ε α) := fun a b =>
  match a, b with
  | .ok x, .ok y => decidable_of_iff (x = y) (by simp)
  | .error x, .error y => decidable_of_iff (x = y) (by simp)
  | .ok _, .error _ => isFalse (fun h => Except.noConfusion h)
  | .error _, .ok _ => isFalse (fun h => Except.noConfusion h)

/-- Strings as lists of Unicode code points. -/
abbrev Str := List Nat

/-- Convert a Lean string literal to its code-point list, for concrete
examples. -/
def strOfString (t : String) : Str :=
  t.toList.map (fun c => c.toNat)

/-- Unicode `White_Space` code points, the set matched by Rust
`char::is_whitespace` (used by `str::trim` and `str::split_whitespace`). -/
def isWsCp (c : Nat) : Bool :=
  (9 ≤ c && c ≤ 13) || c = 32 || c = 0x85 || c = 0xA0 || c = 0x1680 ||
  (0x2000 ≤ c && c ≤ 0x200A) || c = 0x2028 || c = 0x2029 || c = 0x202F ||
  c = 0x205F || c = 0x3000

/-- Rust `str::trim`: strip leading and trailing whitespace. -/
def trimStr (s : Str) : Str :=
  ((s.dropWhile isWsCp).reverse.dropWhile isWsCp).reverse

/-- Diacritic equivalence table of `remove_diacritics` in `src/fts.rs`,
as (code point, replacement code points). -/
def diacriticsTable : List (Nat × List Nat) :=
  [ (0xC0, [0x41]), (0xC1, [0x41]), (0xC2, [0x41]), (0xC3, [0x41]),
    (0xC4, [0x41]), (0xC5, [0x41]), (0xC6, [0x41]),
    (0xDE, [0x42]),
    (0xC7, [0x43]), (0x10C, [0x43]),
    (0x10E, [0x44]), (0xD0, [0x44]),
    (0x11A, [0x45]), (0xC8, [0x45]), (0xC9, [0x45]), (0xCA, [0x45]), (0xCB, [0x45]),
    (0x191, [0x46]),
    (0xCC, [0x49]), (0xCD, [0x49]), (0xCE, [0x49]), (0xCF, [0x49]),
    (0x147, [0x4E]), (0xD1, [0x4E]),
    (0xD2, [0x4F]), (0xD3, [0x4F]), (0xD4, [0x4F]), (0xD5, [0x4F]),
    (0xD6, [0x4F]), (0xD8, [0x4F]),
    (0x158, [0x52]),
    (0xDF, [0x73, 0x73]),
    (0x160, [0x53]),
    (0x164, [0x54]),
    (0x16E, [0x55]), (0xD9, [0x55]), (0xDA, [0x55]), (0xDB, [0x55]), (0xDC, [0x55]),
    (0xDD, [0x59]),
    (0x17D, [0x5A]),
    (0xE0, [0x61]), (0xE1, [0x61]), (0xE2, [0x61]), (0xE3, [0x61]),
    (0xE4, [0x61]), (0xE5, [0x61]), (0xE6, [0x61]),
    (0xFE, [0x62]),
    (0xE7, [0x63]), (0x10D, [0x63]),
    (0x10F, [0x64]), (0xF0, [0x64]),
    (0x11B, [0x65]), (0xE8, [0x65]), (0xE9, [0x65]), (0xEA, [0x65]), (0xEB, [0x65]),
    (0x192, [0x66]),
    (0xEC, [0x69]), (0xED, [0x69]), (0xEE, [0x69]), (0xEF, [0x69]),
    (0xF1, [0x6E]), (0x148, [0x6E]),
    (0xF2, [0x6F]), (0xF3, [0x6F]), (0xF4, [0x6F]), (0xF5, [0x6F]),
    (0xF6, [0x6F]), (0xF8, [0x6F]),
    (0x159, [0x72]),
    (0x161, [0x73]),
    (0x165, [0x74]),
    (0x16F, [0x75]), (0xF9, [0x75]), (0xFA, [0x75]), (0xFB, [0x75]), (0xFC, [0x75]),
    (0xFD, [0x79]), (0xFF, [0x79]),
    (0x17E, [0x7A]) ]

/-- Fold one code point through the diacritics table (identity when absent). -/
def foldDiacritic (c : Nat) : List Nat :=
  match diacriticsTable.find? (fun p => p.1 = c) with
  | some p => p.2
  | none => [c]

/-- Model of `remove_diacritics` in `src/fts.rs`. -/
def removeDiacritics (s : Str) : Str :=
  (s.map foldDiacritic).flatten

/-- Model of Rust `char`-wise lowercasing restricted to ASCII, Latin-1
Supplement and Latin Extended-A (every code point the diacritics table and the
repository's data can produce); other code points are left unchanged. -/
def toLowerChar (c : Nat) : Nat :=
  if 0x41 ≤ c && c ≤ 0x5A then c + 0x20
  else if (0xC0 ≤ c && c ≤ 0xD6) || (0xD8 ≤ c && c ≤ 0xDE) then c + 0x20
  else if 0x100 ≤ c && c ≤ 0x137 && c % 2 = 0 then c + 1
  else if 0x139 ≤ c && c ≤ 0x148 && c % 2 = 1 then c + 1
  else if 0x14A ≤ c && c ≤ 0x177 && c % 2 = 0 then c + 1
  else if c = 0x178 then 0xFF
  else if c = 0x179 || c = 0x17B || c = 0x17D then c + 1
  else if c = 0x191 then 0x192
  else c

/-- Model of `str::to_lowercase` over the supported ranges. -/
def toLowercase (s : Str) : Str :=
  s.map toLowerChar

/-- Helper for `splitWs`: structural recursion with the current token
accumulated in reverse. -/
def splitWsGo : Str → Str → List Str
  | [], cur => if cur.isEmpty then [] else [cur.reverse]
  | c :: rest, cur =>
    if isWsCp c then
      if cur.isEmpty then splitWsGo rest [] else cur.reverse :: splitWsGo rest []
    else splitWsGo rest (c :: cur)

/-- Model of `str::split_whitespace`: non-empty runs of non-whitespace. -/
def splitWs (s : Str) : List Str :=
  splitWsGo s []

/-- Model of `preprocess_text` in `src/fts.rs`: diacritic folding, lowercase,
whitespace split, and a (no-op) trim of each token. -/
def preprocessText (text : Str) : List Str :=
  (splitWs (toLowercase (removeDiacritics text))).map trimStr

/-- UTF-8 encoding of one code point. -/
def encodeChar (c : Nat) : List Nat :=
  if c < 0x80 then [c]
  else if c < 0x800 then [0xC0 + c / 64, 0x80 + c % 64]
  else if c < 0x10000 then [0xE0 + c / 4096, 0x80 + c / 64 % 64, 0x80 + c % 64]
  else [0xF0 + c / 262144, 0x80 + c / 4096 % 64, 0x80 + c / 64 % 64, 0x80 + c % 64]

/-- UTF-8 bytes of a string; `str::len()` in Rust is the length of this list. -/
def strBytes (s : Str) : List Nat :=
  (s.map encodeChar).flatten

/-- Rust `str::is_char_boundary` on a UTF-8 byte list: `0` and the length are
boundaries, an interior index is one iff its byte is not a continuation byte. -/
def isCharBoundary (w : List Nat) (i : Nat) : Bool :=
  if i = 0 then true
  else if h : i < w.length then !(0x80 ≤ w.get ⟨i, h⟩ && w.get ⟨i, h⟩ < 0xC0)
  else i = w.length

/-- Rust `str::get(pos..pos+len)`: `some` slice when both cut points are char
boundaries (and in range), `none` otherwise. -/
def strGet (w : List Nat) (pos len : Nat) : Option (List Nat) :=
  if pos + len ≤ w.length && isCharBoundary w pos && isCharBoundary w (pos + len) then
    some ((w.drop pos).take len)
  else none

/-- One step of the inner position loop of `ngrams` in `src/fts.rs`. The
state carries a broke flag (the source's `break` on an out-of-range or
invalid cut leaves the remaining positions of this length unscanned) plus
(seen, res): the global dedup set and the output in first-seen order, which
the source keeps equal as sets. -/
def posStep (w : List Nat) (len : Nat)
    (st : Bool × List (List Nat) × List (List Nat)) (pos : Nat) :
    Bool × List (List Nat) × List (List Nat) :=
  if st.1 then st
  else if pos + len > w.length then (true, st.2)
  else
    match strGet w pos len with
    | none => (true, st.2)
    | some sub =>
      if sub ∈ st.2.1 then st else (false, sub :: st.2.1, st.2.2 ++ [sub])

/-- Inner position loop of `ngrams`: `for pos in 0..=(w.length - len)`. -/
def posLoop (w : List Nat) (len : Nat)
    (sr : List (List Nat) × List (List Nat)) :
    List (List Nat) × List (List Nat) :=
  ((List.range (w.length - len + 1)).foldl (posStep w len) (false, sr)).2

/-- Length loop of `ngrams`: `for len in 1..=min maxSub w.length`. -/
def lenLoop (w : List Nat) (maxSub : Nat)
    (sr : List (List Nat) × List (List Nat)) :
    List (List Nat) × List (List Nat) :=
  (List.range' 1 (min maxSub w.length)).foldl (fun sr len => posLoop w len sr) sr

/-- Model of `ngrams(text, max_substring_len)` in `src/fts.rs`: for each
preprocessed token, enumerate its byte substrings by increasing length with
global deduplication. Returns the byte strings in first-seen order. -/
def ngrams (text : Str) (maxSub : Nat) : List (List Nat) :=
  ((preprocessText text).foldl (fun sr w => lenLoop (strBytes w) maxSub sr)
    ([], [])).2

/-- Query-token truncation in `Fts::search`: `word[0..max]` is a byte slice,
which panics (modelled as `none`) when byte `max` is not a char boundary. -/
def truncateWord (maxSub : Nat) (w : List Nat) : Option (List Nat) :=
  if w.length > maxSub then
    if isCharBoundary w maxSub then some (w.take maxSub) else none
  else some w

/-- Visit priority of `src/scorer.rs`. -/
inductive VisitPriority
  | normal
  | high
  | veryHigh
deriving DecidableEq, Repr

/-- Percentage bonus of a visit priority (`VisitPriority::bonus`). -/
def VisitPriority.bonus : VisitPriority → Nat
  | .normal => 100
  | .high => 150
  | .veryHigh => 200

/-- A visit log entry: timestamp in microseconds UTC and a priority. -/
structure VisitEntry where
  timestamp : Int
  priority : VisitPriority
deriving DecidableEq, Repr

/-- Model of `weight_for` in `src/scorer.rs`: `(now - when).num_days()`
truncates toward zero (`Int.div`), then the age-bucket step function. -/
def weight_for (now ts : Int) : Nat :=
  let days := Int.tdiv (now - ts) 86400000000
  if days ≤ 4 then 100
  else if days ≤ 14 then 70
  else if days ≤ 31 then 50
  else if days ≤ 90 then 30
  else 10

/-- The scorer of `src/scorer.rs`: a u32 visit count (wrapping is written
explicitly where it can occur) and a FIFO of visit entries. -/
structure Scorer where
  visit_count : Nat
  entries : List VisitEntry
deriving DecidableEq, Repr

/-- `Scorer::default()`. -/
def Scorer.init : Scorer :=
  { visit_count := 0, entries := [] }

/-- Model of `Scorer::add`: drop the oldest entry when the log holds
MAX_VISIT_ENTRIES = 10, push the new entry, increment the u32 visit count
(wrapping). -/
def Scorer.add (s : Scorer) (e : VisitEntry) : Scorer :=
  let entries := if s.entries.length = 10 then s.entries.drop 1 else s.entries
  { visit_count := (s.visit_count + 1) % 2 ^ 32, entries := entries ++ [e] }

/-- Per-entry score of `Scorer::frecency`. The f32 value
`(bonus * weight) as f32 / 100.0` is always a (small) exact integer because
every bonus-weight product is a multiple of 100, so the Nat division is
exact. -/
def pointNat (now : Int) (e : VisitEntry) : Nat :=
  e.priority.bonus * weight_for now e.timestamp / 100

/-- Model of `Scorer::frecency`: zero on an empty log; otherwise
`visit_count * sum.round() as u32 / entries.len()`, a u32 computation whose
multiplication wraps. Per-entry points are exact integers (see `pointNat`), so
the f32 sum is exact for every log of at most 83 886 entries and
`sum.round()` is the integer sum itself. -/
def Scorer.frecency (now : Int) (s : Scorer) : Nat :=
  if s.entries.isEmpty then 0
  else
    (s.visit_count * ((s.entries.map (pointNat now)).sum) % 2 ^ 32) /
      s.entries.length

/-- Specification-side per-entry point, kept in exact rational arithmetic:
`bonus * age_weight / 100` as the spec (§4.1) writes it. -/
def specPoint (now : Int) (e : VisitEntry) : ℚ :=
  (e.priority.bonus * weight_for now e.timestamp : ℚ) / 100

/-- Specification-side sum of points over the entries, in ℚ. -/
def specSum (now : Int) (s : Scorer) : ℚ :=
  (s.entries.map (specPoint now)).sum

/-- Round half away from zero for non-negative rationals (the behaviour of
`f32::round` on the non-negative sums that occur here). -/
def roundHalfUp (q : ℚ) : ℤ :=
  Rat.floor (q + 1 / 2)

/-- Resource identifiers are opaque strings (`ResourceId` wraps a `String`;
no Unicode processing is ever applied to one). -/
abbrev ResourceId := String

/-- The distinguished root id of `src/common.rs`. -/
def rootId : ResourceId := "9e48b88d-4ab5-496b-ad7f-9ecc685128db"

/-- `ResourceId::is_root`. -/
def isRoot (id : ResourceId) : Bool := id = rootId

/-- Resource kinds of `src/common.rs`. -/
inductive ResourceKind
  | container
  | leaf
deriving DecidableEq, Repr

/-- A variant descriptor: name, mime type and size (`src/common.rs`). Variant
names undergo no Unicode processing and are kept as plain strings. -/
structure Variant where
  name : String
  mimeType : String
  size : Nat
deriving DecidableEq, Repr

/-- Resource metadata (`src/common.rs`). Timestamps are microseconds UTC. -/
structure ResourceMetadata where
  id : ResourceId
  parent : ResourceId
  kind : ResourceKind
  name : Str
  tags : List Str
  variants : List Variant
  created : Int
  modified : Int
  scorer : Scorer
deriving DecidableEq, Repr

/-- `ResourceMetadata::has_variant`. -/
def ResourceMetadata.hasVariant (m : ResourceMetadata) (name : String) : Bool :=
  m.variants.any (fun v => v.name = name)

/-- `ResourceMetadata::delete_variant`: drop every variant with that name. -/
def ResourceMetadata.removeVariant (m : ResourceMetadata) (name : String) :
    ResourceMetadata :=
  { m with variants := m.variants.filter (fun v => v.name ≠ name) }

/-- Error kinds of `ResourceStoreError` in `src/common.rs`; the payloads of
the `Sql`, `Json`, `Io` and `Speedy` variants are dropped because those errors
compare equal by kind. -/
inductive StoreError
  | resourceAlreadyExists
  | noSuchResource
  | resourceCycle
  | invalidVariant (name : String)
  | custom (msg : String)
  | sql
  | json
  | io
  | invalidContainerId
  | speedy
deriving DecidableEq, Repr

/-- A row of the `resources` table; the `scorer` BLOB column is modelled by
the decoded `Scorer` value it serializes (spec P5: serialization
round-trips). -/
structure RRow where
  id : ResourceId
  parent : ResourceId
  kind : ResourceKind
  name : Str
  created : Int
  modified : Int
  scorer : Scorer
deriving DecidableEq, Repr

/-- The SQLite metadata index: `resources`, `tags`, `variants` and `fts`
tables as lists of rows in insertion order. The packed ten-ngram rows of the
`fts` table are modelled by the set of (id, ngram-bytes) pairs they hold, the
semantics the spec (§4.3) assigns to them. -/
structure IndexState where
  resources : List RRow
  tags : List (ResourceId × Str)
  variants : List (ResourceId × Variant)
  fts : List (ResourceId × List Nat)
deriving DecidableEq, Repr

/-- The `resources` row written for a metadata value (`Manager::create_metadata`). -/
def rowOf (md : ResourceMetadata) : RRow :=
  { id := md.id, parent := md.parent, kind := md.kind, name := md.name,
    created := md.created, modified := md.modified, scorer := md.scorer }

/-- Model of `Fts::add_text` run for `id` with `text`: insert exactly the
ngrams not already stored for that id (per-id deduplication). -/
def addTextPairs (fts : List (ResourceId × List Nat)) (id : ResourceId)
    (text : Str) : List (ResourceId × List Nat) :=
  fts ++ ((ngrams text 5).filter (fun g => (id, g) ∉ fts)).map (fun g => (id, g))

/-- `Manager::is_container`: the count of rows with this id and Container
kind equals one. -/
def isContainer (db : IndexState) (id : ResourceId) : Bool :=
  (db.resources.filter (fun r => r.id = id && r.kind = ResourceKind.container)).length = 1

/-- `Manager::check_container_leaf`. -/
def checkContainerLeaf (db : IndexState) (id parent : ResourceId) :
    Except StoreError Unit :=
  if parent = id && !isRoot parent then .error .invalidContainerId
  else if !isRoot id && !isContainer db parent then .error .invalidContainerId
  else .ok ()

/-- `Manager::children_of`: ids of rows with `parent = p AND parent != id`,
in table order. -/
def childrenOf (db : IndexState) (p : ResourceId) : List ResourceId :=
  (db.resources.filter (fun r => r.parent = p && r.parent ≠ r.id)).map (fun r => r.id)

/-- Index writes of `Manager::create_metadata` applied to a transaction
state: insert the resource row (failing like SQLite on a PRIMARY KEY or
UNIQUE (parent, name) conflict), the tag rows, the variant rows (PRIMARY KEY
(id, name)), and the fts rows for the resource name. -/
def createTx (db : IndexState) (md : ResourceMetadata) :
    Except StoreError IndexState :=
  if db.resources.any (fun r => r.id = md.id) then .error .sql
  else if db.resources.any (fun r => r.parent = md.parent && r.name = md.name) then
    .error .sql
  else if !(md.variants.map (fun v => v.name)).Nodup then .error .sql
  else .ok
    { resources := db.resources ++ [rowOf md],
      tags := db.tags ++ md.tags.map (fun t => (md.id, t)),
      variants := db.variants ++ md.variants.map (fun v => (md.id, v)),
      fts := addTextPairs db.fts md.id md.name }

/-- Cascade of `DELETE FROM resources WHERE id = ?`: the FOREIGN KEY ... ON
DELETE CASCADE rules also remove the id's tag, variant and fts rows. -/
def deleteResourceRows (db : IndexState) (id : ResourceId) : IndexState :=
  { resources := db.resources.filter (fun r => r.id ≠ id),
    tags := db.tags.filter (fun p => p.1 ≠ id),
    variants := db.variants.filter (fun p => p.1 ≠ id),
    fts := db.fts.filter (fun p => p.1 ≠ id) }

/-- LRU cache as an assoc list ordered most-recent-first, bounded by `cap`
(`lru::LruCache::put`). -/
def cachePut (cap : Nat) (cache : List (ResourceId × ResourceMetadata))
    (md : ResourceMetadata) : List (ResourceId × ResourceMetadata) :=
  ((md.id, md) :: cache.filter (fun p => p.1 ≠ md.id)).take cap

/-- `LruCache::get` promotes the entry to most-recent. -/
def cacheGet (cache : List (ResourceId × ResourceMetadata)) (id : ResourceId) :
    Option ResourceMetadata × List (ResourceId × ResourceMetadata) :=
  match cache.find? (fun p => p.1 = id) with
  | some p => (some p.2, p :: cache.filter (fun q => q.1 ≠ id))
  | none => (none, cache)

/-- `LruCache::pop` (`Manager::evict_from_cache`). -/
def cacheEvict (cache : List (ResourceId × ResourceMetadata)) (id : ResourceId) :
    List (ResourceId × ResourceMetadata) :=
  cache.filter (fun p => p.1 ≠ id)

/-- Replace a container's child-list blob (`update_default_variant_from_slice`). -/
def listingsPut (listings : List (ResourceId × List ResourceId)) (p : ResourceId)
    (children : List ResourceId) : List (ResourceId × List ResourceId) :=
  (p, children) :: listings.filter (fun q => q.1 ≠ p)

/-- Manager state: committed index, metadata LRU with its capacity, and the
container child-list blobs held by the blob store (the only blob-side state a
claim observes; bincode serialization of the child list is left abstract since
it round-trips). -/
structure Manager where
  db : IndexState
  cache : List (ResourceId × ResourceMetadata)
  cap : Nat
  storeListings : List (ResourceId × List ResourceId)
deriving DecidableEq, Repr

/-- Outcomes of the blob-store calls a Manager operation makes, abstracting
the `ResourceStore` trait implementation. -/
structure StoreBehavior where
  createRes : Except StoreError Unit
  updateRes : Except StoreError Unit
  updateDefaultRes : Except StoreError Unit
  deleteVariantRes : Except StoreError Unit
  getMetadataRes : ResourceId → Except StoreError ResourceMetadata

/-- Model of `Manager::get_metadata`: LRU first, then the index (assembling
the row with its tag and variant rows and decoded scorer), then re-hydration
from the blob store (re-running the `create_metadata` writes in a committed
transaction). -/
def Manager.getMetadata (m : Manager) (sb : StoreBehavior) (id : ResourceId) :
    Except StoreError ResourceMetadata × Manager :=
  match cacheGet m.cache id with
  | (some md, cache') => (.ok md, { m with cache := cache' })
  | (none, _) =>
    match m.db.resources.find? (fun r => r.id = id) with
    | some r =>
      let md : ResourceMetadata :=
        { id := r.id, parent := r.parent, kind := r.kind, name := r.name,
          tags := (m.db.tags.filter (fun p => p.1 = id)).map (fun p => p.2),
          variants := (m.db.variants.filter (fun p => p.1 = id)).map (fun p => p.2),
          created := r.created, modified := r.modified, scorer := r.scorer }
      (.ok md, { m with cache := cachePut m.cap m.cache md })
    | none =>
      match sb.getMetadataRes id with
      | .error e => (.error e, m)
      | .ok md =>
        match createTx m.db md with
        | .error e => (.error e, m)
        | .ok tx =>
          (.ok md, { m with db := tx,
                            cache := cachePut m.cap (cachePut m.cap m.cache md) md })

/-- Model of `Manager::create`: precheck, build the index transaction
(`create_metadata`, which also fills the LRU), rewrite the parent's child-list
blob when not creating the root, then call `store.create`; commit the
transaction only on blob success, otherwise drop it and surface the error
unchanged. The registered indexer list is empty (as after `Manager::new`), so
`update_text_index` leaves the transaction unchanged. -/
def Manager.create (m : Manager) (sb : StoreBehavior) (md : ResourceMetadata)
    (_content : Option Variant) : Except StoreError Unit × Manager :=
  match checkContainerLeaf m.db md.id md.parent with
  | .error e => (.error e, m)
  | .ok _ =>
    match createTx m.db md with
    | .error e => (.error e, m)
    | .ok tx =>
      let m1 := { m with cache := cachePut m.cap m.cache md }
      if !isRoot md.id then
        match sb.updateDefaultRes with
        | .error e => (.error e, m1)
        | .ok _ =>
          let m2 := { m1 with
            storeListings := listingsPut m1.storeListings md.parent (childrenOf tx md.parent) }
          match sb.createRes with
          | .ok _ => (.ok (), { m2 with db := tx })
          | .error e => (.error e, m2)
      else
        match sb.createRes with
        | .ok _ => (.ok (), { m1 with db := tx })
        | .error e => (.error e, m1)

/-- Model of `Manager::update`: like `create` but the transaction first
deletes the existing resource row (cascading), and the blob call is
`store.update`. -/
def Manager.update (m : Manager) (sb : StoreBehavior) (md : ResourceMetadata)
    (_content : Option Variant) : Except StoreError Unit × Manager :=
  match checkContainerLeaf m.db md.id md.parent with
  | .error e => (.error e, m)
  | .ok _ =>
    match createTx (deleteResourceRows m.db md.id) md with
    | .error e => (.error e, m)
    | .ok tx =>
      let m1 := { m with cache := cachePut m.cap m.cache md }
      if !isRoot md.id then
        match sb.updateDefaultRes with
        | .error e => (.error e, m1)
        | .ok _ =>
          let m2 := { m1 with
            storeListings := listingsPut m1.storeListings md.parent (childrenOf tx md.parent) }
          match sb.updateRes with
          | .ok _ => (.ok (), { m2 with db := tx })
          | .error e => (.error e, m2)
      else
        match sb.updateRes with
        | .ok _ => (.ok (), { m1 with db := tx })
        | .error e => (.error e, m1)

/-- Model of `Manager::delete_variant`: fetch the metadata, check the variant
is declared, then run `DELETE FROM variants` directly on the pool (no
transaction), update the local metadata value, and only then call
`store.delete_variant` and `store.update` — whose errors are surfaced after
the index row is already gone. No container/children check is performed. -/
def Manager.deleteVariant (m : Manager) (sb : StoreBehavior) (id : ResourceId)
    (variantName : String) : Except StoreError Unit × Manager :=
  match m.getMetadata sb id with
  | (.error e, m1) => (.error e, m1)
  | (.ok md, m1) =>
    if !md.hasVariant variantName then (.error (.invalidVariant variantName), m1)
    else
      let m2 := { m1 with db := { m1.db with
        variants := m1.db.variants.filter (fun p => !(p.1 = id && p.2.name = variantName)) } }
      let _md' := md.removeVariant variantName
      match sb.deleteVariantRes with
      | .error e => (.error e, m2)
      | .ok _ =>
        match sb.updateRes with
        | .error e => (.error e, m2)
        | .ok _ => (.ok (), m2)

/-- Model of `Manager::visit`: add the entry to the caller's metadata scorer,
rewrite only the scorer column of that id's row (`UPDATE OR REPLACE ... WHERE
id = ?`), and evict the id from the LRU. Returns the mutated metadata (the
Rust signature mutates it in place). No blob write occurs. -/
def Manager.visit (m : Manager) (md : ResourceMetadata) (e : VisitEntry) :
    ResourceMetadata × Manager :=
  let md' := { md with scorer := md.scorer.add e }
  let rows := m.db.resources.map
    (fun r => if r.id = md.id then { r with scorer := md'.scorer } else r)
  (md', { m with db := { m.db with resources := rows },
                 cache := cacheEvict m.cache md.id })

/-- Insertion sort by a boolean "comes before or equal" relation, the stand-in
for the SQL ORDER BY / `sort_by` steps; only membership matters to the
claims. -/
def insertSorted (le : α → α → Bool) (a : α) : List α → List α
  | [] => [a]
  | b :: l => if le a b then a :: b :: l else b :: insertSorted le a l

/-- Sort a list with an insertion sort. -/
def sortByRel (le : α → α → Bool) : List α → List α
  | [] => []
  | a :: l => insertSorted le a (sortByRel le l)

/-- Frecency of a resource row as the SQL-callable `frecency(scorer)` function
computes it from the serialized scorer. -/
def frecOfRow (now : Int) (r : RRow) : Nat :=
  r.scorer.frecency now

/-- Model of `Manager::by_name`: reject empty or whitespace-only names with a
`Custom` error, otherwise return ids with that name (joined with the tags
table when a tag is given) ordered by descending frecency. -/
def byName (now : Int) (db : IndexState) (name : Str) (tag : Option Str) :
    Except StoreError (List ResourceId) :=
  if (trimStr name).isEmpty then .error (.custom "EmptyNameQuery")
  else
    let rows :=
      match tag with
      | some t => db.resources.filter (fun r => r.name = name && (r.id, t) ∈ db.tags)
      | none => db.resources.filter (fun r => r.name = name)
    .ok ((sortByRel (fun a b => frecOfRow now b ≤ frecOfRow now a) rows).map (fun r => r.id))

/-- Model of `Manager::by_tag`: reject empty or whitespace-only tags with a
`Custom` error, otherwise ids joined with the tags table ordered by
descending frecency. -/
def byTag (now : Int) (db : IndexState) (tag : Str) :
    Except StoreError (List ResourceId) :=
  if (trimStr tag).isEmpty then .error (.custom "EmptyTagQuery")
  else
    .ok ((sortByRel (fun a b => frecOfRow now b ≤ frecOfRow now a)
      (db.resources.filter (fun r => (r.id, tag) ∈ db.tags))).map (fun r => r.id))

/-- Model of `Manager::top_by_frecency`: a zero count is a `Custom` error,
otherwise the first `count` of all rows ordered by descending frecency. -/
def topByFrecency (now : Int) (db : IndexState) (count : Nat) :
    Except StoreError (List (ResourceId × Nat)) :=
  if count = 0 then .error (.custom "ZeroCountQuery")
  else
    .ok (((sortByRel (fun a b => frecOfRow now b ≤ frecOfRow now a)
      db.resources).map (fun r => (r.id, frecOfRow now r))).take count)

/-- Model of `Manager::last_modified`: a zero count is a `Custom` error,
otherwise the first `count` of all rows ordered by descending modification
time. -/
def lastModified (now : Int) (db : IndexState) (count : Nat) :
    Except StoreError (List (ResourceId × Nat)) :=
  if count = 0 then .error (.custom "ZeroCountQuery")
  else
    .ok (((sortByRel (fun a b => b.modified ≤ a.modified)
      db.resources).map (fun r => (r.id, frecOfRow now r))).take count)

/-- Outcome of a full-text query: a Rust panic (the byte truncation
`word[0..max]` cutting a code point in half), an error, or a result list. -/
inductive QueryOutcome
  | panicked
  | failed (e : StoreError)
  | ok (l : List (ResourceId × Nat))
deriving DecidableEq, Repr

/-- One per-word record pass of `Fts::search`: the rows whose id has an fts
row equal to the (truncated) word, joined with the tags table when a tag is
given, as (id, frecency) records in table order. -/
def wordRecords (now : Int) (db : IndexState) (tag : Option String) (w : List Nat) :
    List (ResourceId × Nat) :=
  (db.resources.filter (fun r =>
      (r.id, w) ∈ db.fts &&
      match tag with
      | some t => (r.id, (t.toList.map Char.toNat : Str)) ∈ db.tags
      | none => true)).map (fun r => (r.id, frecOfRow now r))

/-- The `HashMap::entry(..).and_modify(..).or_insert(..)` accumulation of
`Fts::search`, on an assoc list keyed by id holding (match count, frecency). -/
def bumpOne (acc : List (ResourceId × Nat × Nat)) (rec : ResourceId × Nat) :
    List (ResourceId × Nat × Nat) :=
  if acc.any (fun p => p.1 = rec.1) then
    acc.map (fun p => if p.1 = rec.1 then (p.1, p.2.1 + 1, p.2.2) else p)
  else acc ++ [(rec.1, 1, rec.2)]

/-- Truncate every query token to its first `MAX_NGRAM = 5` bytes; `none`
models the Rust panic of `word[0..max]` when byte 5 cuts a code point. -/
def truncateAll : List Str → Option (List (List Nat))
  | [] => some []
  | w :: rest =>
    match truncateWord 5 (strBytes w), truncateAll rest with
    | some t, some ts => some (t :: ts)
    | _, _ => none

/-- Model of `Fts::search`: preprocess the query, truncate each token to its
first `MAX_NGRAM = 5` bytes (panicking when byte 5 is not a char boundary),
count per-id matches over the words, keep ids matched by every word, and sort
by descending frecency. The iteration order of the Rust `HashMap` is
abstracted by first-match order before the sort. -/
def search (now : Int) (db : IndexState) (text : Str) (tag : Option String) :
    QueryOutcome :=
  let words := preprocessText text
  match truncateAll words with
  | none => .panicked
  | some truncated =>
    let acc := truncated.foldl (fun acc w => (wordRecords now db tag w).foldl bumpOne acc) []
    let hits := (acc.filter (fun p => p.2.1 = words.length)).map (fun p => (p.1, p.2.2))
    .ok (sortByRel (fun a b => b.2 ≤ a.2) hits)

/-- Match count stored for an id in the search accumulator (0 when absent),
used to analyse `Fts::search`. -/
def countOf (acc : List (ResourceId × Nat × Nat)) (X : ResourceId) : Nat :=
  match acc.find? (fun p => p.1 = X) with
  | some p => p.2.1
  | none => 0

/-- Whether one query word matches a resource id: some record of the per-word
query carries that id. -/
def wordMatches (now : Int) (db : IndexState) (tag : Option String)
    (X : ResourceId) (w : List Nat) : Bool :=
  (wordRecords now db tag w).any (fun r => r.1 = X)

/-- Model of `Manager::by_text`: reject empty or whitespace-only queries with
a `Custom` error, otherwise run `Fts::search`. -/
def byText (now : Int) (db : IndexState) (text : Str) (tag : Option String) :
    QueryOutcome :=
  if (trimStr text).isEmpty then .failed (.custom "EmptyTextQuery")
  else search now db text tag

/-- Metadata resolution used by the `get_full_path` model: an association
list from id to the metadata the manager resolves for it (LRU, index and blob
store agree on committed states, and re-hydration commits exactly the
metadata it returns, so one finite map models `get_metadata` along the
walk). -/
def lookupMeta (store : List (ResourceId × ResourceMetadata)) (id : ResourceId) :
    Option ResourceMetadata :=
  (store.find? (fun p => p.1 = id)).map (fun p => p.2)

/-- Loop of `Manager::get_full_path`: fail on a revisited id, fail when
metadata is missing, push the metadata, stop at the root, else continue with
the parent. The `nd`/`sub` arguments carry the loop invariant (the visited
ids are distinct ids of the store) that bounds the iteration. -/
def getFullPathGo (store : List (ResourceId × ResourceMetadata))
    (current : ResourceId) (visited : List ResourceId)
    (res : List ResourceMetadata) (nd : visited.Nodup)
    (sub : ∀ x ∈ visited, x ∈ store.map Prod.fst) :
    Except StoreError (List ResourceMetadata) :=
  if hv : current ∈ visited then .error .resourceCycle
  else
    match hm : lookupMeta store current with
    | none => .error .noSuchResource
    | some meta =>
      if isRoot current then .ok (res ++ [meta]).reverse
      else
        getFullPathGo store meta.parent (current :: visited) (res ++ [meta])
          (List.nodup_cons.mpr ⟨hv, nd⟩)
          (by
            intro x hx
            rcases List.mem_cons.mp hx with h | h
            · subst h
              simp only [lookupMeta] at hm
              rcases Option.map_eq_some'.mp hm with ⟨pr, hfind, -⟩
              have hmem := List.mem_of_find?_eq_some hfind
              have hpred := List.find?_some hfind
              have hx1 : pr.1 = x := by simpa using hpred
              exact List.mem_map.mpr ⟨pr, hmem, hx1⟩
            · exact sub x h)
termination_by store.length - visited.length
decreasing_by
  have hnd : (current :: visited).Nodup := List.nodup_cons.mpr ⟨hv, nd⟩
  have hsub : (current :: visited) ⊆ store.map Prod.fst := by
    intro x hx
    rcases List.mem_cons.mp hx with h | h
    · subst h
      simp only [lookupMeta] at hm
      rcases Option.map_eq_some'.mp hm with ⟨pr, hfind, -⟩
      have hmem := List.mem_of_find?_eq_some hfind
      have hpred := List.find?_some hfind
      have hx1 : pr.1 = x := by simpa using hpred
      exact List.mem_map.mpr ⟨pr, hmem, hx1⟩
    · exact sub x h
  have hle := (hnd.subperm hsub).length_le
  simp only [List.length_map, List.length_cons] at hle
  simp only [List.length_cons]
  omega

/-- Model of `Manager::get_full_path`. -/
def getFullPath (store : List (ResourceId × ResourceMetadata)) (id : ResourceId) :
    Except StoreError (List ResourceMetadata) :=
  getFullPathGo store id [] [] List.nodup_nil (by intro x hx; cases hx)

/-- Concrete root row used by the example states below. -/
def sampleRootRow : RRow :=
  ⟨rootId, rootId, .container, strOfString "/", 0, 0, Scorer.init⟩

/-- Example state: a leaf `id-1` under the root with `default` and
`thumbnail` variants; the LRU is empty so `get_metadata` goes through the
index. -/
def leafTwoVariantsMgr : Manager :=
  ⟨⟨[sampleRootRow, ⟨"id-1", rootId, .leaf, strOfString "file.txt", 0, 0, Scorer.init⟩],
    [],
    [("id-1", ⟨"default", "text/plain", 1⟩), ("id-1", ⟨"thumbnail", "image/png", 2⟩)],
    []⟩, [], 4, []⟩

/-- Blob-store behaviour where only `delete_variant` fails (with an I/O
error). -/
def sbDeleteVariantFails : StoreBehavior :=
  ⟨.ok (), .ok (), .ok (), .error .io, fun _ => .error .noSuchResource⟩

/-- Blob-store behaviour where every call succeeds. -/
def sbAllOk : StoreBehavior :=
  ⟨.ok (), .ok (), .ok (), .ok (), fun _ => .error .noSuchResource⟩

/-- Example state: a container `id-c` under the root holding one child leaf
`id-l`; the container declares its `default` (child list) variant. -/
def containerWithChildMgr : Manager :=
  ⟨⟨[sampleRootRow,
     ⟨"id-c", rootId, .container, strOfString "cont", 0, 0, Scorer.init⟩,
     ⟨"id-l", "id-c", .leaf, strOfString "leafy", 0, 0, Scorer.init⟩],
    [],
    [("id-c", ⟨"default", "inode/directory", 0⟩)],
    []⟩, [], 4, []⟩

/-- Example state: only the root row is committed. -/
def rootOnlyMgr : Manager :=
  ⟨⟨[sampleRootRow], [], [], []⟩, [], 4, []⟩

/-- Fresh leaf metadata to create under the root. -/
def newLeafMeta : ResourceMetadata :=
  ⟨"id-2", rootId, .leaf, strOfString "new.txt", [], [⟨"default", "text/plain", 1⟩],
   0, 0, Scorer.init⟩

/-- Blob-store behaviour where only `store.create` fails (with an I/O
error). -/
def sbCreateFails : StoreBehavior :=
  ⟨.error .io, .ok (), .ok (), .ok (), fun _ => .error .noSuchResource⟩

/-- A scorer reached by eleven very-high-priority visits at time 0: visit
count 11, ten sampled entries. -/
def elevenVeryHigh : Scorer :=
  (List.range 11).foldl (fun sc _ => sc.add ⟨0, .veryHigh⟩) Scorer.init

/-- Example state for `visit`: the root row carries `elevenVeryHigh`. -/
def visitedRootMgr : Manager :=
  ⟨⟨[⟨rootId, rootId, .container, strOfString "/", 0, 0, elevenVeryHigh⟩], [], [], []⟩,
   [], 4, []⟩

/-- The root metadata matching `visitedRootMgr`. -/
def visitedRootMeta : ResourceMetadata :=
  ⟨rootId, rootId, .container, strOfString "/", [], [], 0, 0, elevenVeryHigh⟩

/-- An index holding only the root row, with no fts rows. -/
def rootOnlyDb : IndexState :=
  ⟨[sampleRootRow], [], [], []⟩

/-- The metadata `get_metadata` assembles for `id-c` in
`containerWithChildMgr`. -/
def containerMetaFetched : ResourceMetadata :=
  ⟨"id-c", rootId, .container, strOfString "cont", [],
   [⟨"default", "inode/directory", 0⟩], 0, 0, Scorer.init⟩

/-- `containerWithChildMgr` after that `get_metadata` call (the LRU now holds
the container metadata). -/
def containerMgrAfterGet : Manager :=
  { containerWithChildMgr with cache := [("id-c", containerMetaFetched)] }

/-- The transaction state `create` builds for `newLeafMeta` over
`rootOnlyMgr`. -/
def newLeafTx : IndexState :=
  { resources := rootOnlyMgr.db.resources ++ [rowOf newLeafMeta],
    tags := [],
    variants := [("id-2", ⟨"default", "text/plain", 1⟩)],
    fts := addTextPairs [] "id-2" (strOfString "new.txt") }

/-- Root metadata for the `get_full_path` examples. -/
def walkRootMeta : ResourceMetadata :=
  ⟨rootId, rootId, .container, strOfString "/", [], [], 0, 0, Scorer.init⟩

/-- A leaf directly under the root for the `get_full_path` examples. -/
def walkLeafMeta : ResourceMetadata :=
  ⟨"id-a", rootId, .leaf, strOfString "a", [], [], 0, 0, Scorer.init⟩

/-- Two-resource metadata resolution for the `get_full_path` examples. -/
def walkStore : List (ResourceId × ResourceMetadata) :=
  [(rootId, walkRootMeta), ("id-a", walkLeafMeta)]

/-- The id chain of the example walk: `id-a`, then the root. -/
def walkC : Nat → ResourceId :=
  fun i => if i = 0 then "id-a" else rootId

/-- The metadata chain of the example walk. -/
def walkMt : Nat → ResourceMetadata :=
  fun i => if i = 0 then walkLeafMeta else walkRootMeta

/-- An index whose fts table holds the n-gram rows `add_text` stores for the
root resource and the text "root". -/
def ftsDb : IndexState :=
  ⟨[sampleRootRow], [], [], addTextPairs [] rootId (strOfString "root")⟩

/-!
## Theorems

First general helper lemmas about the embedded operations, then for each
claim its theorem (and witness or counterexample where required).
-/

theorem trimStr_eq_nil_iff (q : Str) : trimStr q = [] ↔ ∀ c ∈ q, isWsCp c := by
  unfold trimStr
  rw [List.reverse_eq_nil_iff, List.dropWhile_eq_nil_iff]
  simp only [List.mem_reverse]
  constructor
  · intro h c hc
    have hq : c ∈ q.takeWhile isWsCp ++ q.dropWhile isWsCp := by
      rw [List.takeWhile_append_dropWhile]
      exact hc
    rcases List.mem_append.mp hq with h1 | h2
    · exact List.mem_takeWhile_imp h1
    · exact h _ h2
  · intro h c hc
    exact h c ((List.dropWhile_sublist _).subset hc)

theorem mem_insertSorted {le : α → α → Bool} {a x : α} {l : List α} :
    x ∈ insertSorted le a l ↔ x = a ∨ x ∈ l := by
  induction l with
  | nil => simp [insertSorted]
  | cons b t ih =>
    unfold insertSorted
    by_cases h : le a b = true
    · simp only [h, if_true, List.mem_cons]
    · rw [Bool.not_eq_true] at h
      simp only [h, Bool.false_eq_true, if_false, List.mem_cons, ih]
      tauto

theorem mem_sortByRel {le : α → α → Bool} {x : α} {l : List α} :
    x ∈ sortByRel le l ↔ x ∈ l := by
  induction l with
  | nil => simp [sortByRel]
  | cons b t ih =>
    unfold sortByRel
    rw [mem_insertSorted]
    simp [ih]

theorem cacheGet_cachePut (cap : Nat) (cache : List (ResourceId × ResourceMetadata))
    (md : ResourceMetadata) (h : 1 ≤ cap) :
    ∃ c', cacheGet (cachePut cap cache md) md.id = (some md, c') := by
  obtain ⟨n, rfl⟩ : ∃ n, cap = n + 1 := ⟨cap - 1, by omega⟩
  unfold cacheGet cachePut
  rw [List.take_succ_cons, List.find?_cons_of_pos _ (by simp)]
  exact ⟨_, rfl⟩

/-- C9: `by_name`, `by_tag` and `by_text` return the `Custom` error for every
query string that is empty or consists only of whitespace, and
`top_by_frecency(0)` and `last_modified(0)` return the `Custom` error; in all
these cases no result list is produced. -/
theorem query_guards_reject_trivial_inputs :
    (∀ (now : Int) (db : IndexState) (q : Str) (tag : Option Str),
      (∀ c ∈ q, isWsCp c) → byName now db q tag = .error (.custom "EmptyNameQuery")) ∧
    (∀ (now : Int) (db : IndexState) (q : Str),
      (∀ c ∈ q, isWsCp c) → byTag now db q = .error (.custom "EmptyTagQuery")) ∧
    (∀ (now : Int) (db : IndexState) (q : Str) (tag : Option String),
      (∀ c ∈ q, isWsCp c) → byText now db q tag = .failed (.custom "EmptyTextQuery")) ∧
    (∀ (now : Int) (db : IndexState),
      topByFrecency now db 0 = .error (.custom "ZeroCountQuery")) ∧
    (∀ (now : Int) (db : IndexState),
      lastModified now db 0 = .error (.custom "ZeroCountQuery")) := by
  refine ⟨?_, ?_, ?_, ?_, ?_⟩
  · intro now db q tag h
    have ht : trimStr q = [] := (trimStr_eq_nil_iff q).mpr h
    simp [byName, ht]
  · intro now db q h
    have ht : trimStr q = [] := (trimStr_eq_nil_iff q).mpr h
    simp [byTag, ht]
  · intro now db q tag h
    have ht : trimStr q = [] := (trimStr_eq_nil_iff q).mpr h
    simp [byText, ht]
  · intro now db
    simp [topByFrecency]
  · intro now db
    simp [lastModified]

/-- Witness for C9 at concrete whitespace-only queries and zero counts. -/
theorem query_guards_reject_trivial_inputs_witness :
    byName 0 rootOnlyDb [32] none = .error (.custom "EmptyNameQuery") ∧
    byTag 0 rootOnlyDb [9, 32] = .error (.custom "EmptyTagQuery") ∧
    byText 0 rootOnlyDb [] none = .failed (.custom "EmptyTextQuery") ∧
    topByFrecency 0 rootOnlyDb 0 = .error (.custom "ZeroCountQuery") ∧
    lastModified 0 rootOnlyDb 0 = .error (.custom "ZeroCountQuery") :=
  ⟨query_guards_reject_trivial_inputs.1 0 rootOnlyDb [32] none (by decide),
   query_guards_reject_trivial_inputs.2.1 0 rootOnlyDb [9, 32] (by decide),
   query_guards_reject_trivial_inputs.2.2.1 0 rootOnlyDb [] none (by decide),
   query_guards_reject_trivial_inputs.2.2.2.1 0 rootOnlyDb,
   query_guards_reject_trivial_inputs.2.2.2.2 0 rootOnlyDb⟩

/-- C2 (code bug): `delete_variant` runs `DELETE FROM variants` directly on
the connection pool, outside any transaction, before calling
`store.delete_variant`. When the blob deletion fails the I/O error is
surfaced, but the (id, name) variants row is already gone — there is nothing
to roll back, contradicting the claim, the module's own documentation
("Any failure of the remote side leads to a rollback of the database
transaction") and the spec's two-phase protocol. -/
theorem deleteVariant_blob_error_row_already_deleted :
    ("id-1", (⟨"thumbnail", "image/png", 2⟩ : Variant)) ∈
      leafTwoVariantsMgr.db.variants ∧
    (leafTwoVariantsMgr.deleteVariant sbDeleteVariantFails "id-1" "thumbnail").1 =
      .error .io ∧
    ("id-1", (⟨"thumbnail", "image/png", 2⟩ : Variant)) ∉
      (leafTwoVariantsMgr.deleteVariant sbDeleteVariantFails "id-1" "thumbnail").2.db.variants := by
  decide

/-- C8 (counterexample): `id-c` is a container with one child, yet
`delete_variant(id-c, "default")` returns Ok and removes the variant row —
the claimed failure does not occur. -/
theorem deleteVariant_default_of_container_succeeds :
    isContainer containerWithChildMgr.db "id-c" = true ∧
    childrenOf containerWithChildMgr.db "id-c" = ["id-l"] ∧
    (containerWithChildMgr.deleteVariant sbAllOk "id-c" "default").1 = .ok () ∧
    ("id-c", (⟨"default", "inode/directory", 0⟩ : Variant)) ∉
      (containerWithChildMgr.deleteVariant sbAllOk "id-c" "default").2.db.variants := by
  decide

/-- C8 (amended): `delete_variant` performs no container/children check at
all: whenever the metadata fetch succeeds and declares the variant and the
two blob calls succeed, the call returns Ok and removes the variant row —
in particular for the `default` variant of a container that currently has at
least one child. -/
theorem deleteVariant_no_child_check :
    ∀ (m m₁ : Manager) (sb : StoreBehavior) (id : ResourceId) (vname : String)
      (meta : ResourceMetadata),
      m.getMetadata sb id = (.ok meta, m₁) →
      meta.hasVariant vname = true →
      sb.deleteVariantRes = .ok () →
      sb.updateRes = .ok () →
      isContainer m.db id = true →
      childrenOf m.db id ≠ [] →
      (m.deleteVariant sb id vname).1 = .ok () ∧
      ∀ v : Variant, (id, v) ∈ (m.deleteVariant sb id vname).2.db.variants →
        v.name ≠ vname := by
  intro m m₁ sb id vname meta hget hvar hdel hupd _ _
  unfold Manager.deleteVariant
  rw [hget]
  simp only [hvar, Bool.not_true, Bool.false_eq_true, if_false, hdel, hupd]
  refine ⟨by trivial, ?_⟩
  intro v hv
  have hc := (List.mem_filter.mp hv).2
  simp only [Bool.not_eq_true', Bool.and_eq_false_iff, decide_eq_false_iff_not] at hc
  rcases hc with hc | hc
  · simp at hc
  · exact hc

/-- Witness for C8's amended theorem at the concrete container state. -/
theorem deleteVariant_no_child_check_witness :
    (containerWithChildMgr.deleteVariant sbAllOk "id-c" "default").1 = .ok () ∧
    ∀ v : Variant,
      ("id-c", v) ∈ (containerWithChildMgr.deleteVariant sbAllOk "id-c" "default").2.db.variants →
      v.name ≠ "default" :=
  deleteVariant_no_child_check containerWithChildMgr containerMgrAfterGet sbAllOk
    "id-c" "default" containerMetaFetched (by decide) (by decide) rfl rfl
    (by decide) (by decide)

theorem create_blob_error_eq (m : Manager) (sb : StoreBehavior)
    (md : ResourceMetadata) (content : Option Variant) (e : StoreError)
    (tx : IndexState)
    (hchk : checkContainerLeaf m.db md.id md.parent = .ok ())
    (htx : createTx m.db md = .ok tx)
    (hupd : sb.updateDefaultRes = .ok ())
    (hcre : sb.createRes = .error e) :
    m.create sb md content =
      (.error e,
        if isRoot md.id then { m with cache := cachePut m.cap m.cache md }
        else { m with cache := cachePut m.cap m.cache md,
                      storeListings :=
                        listingsPut m.storeListings md.parent (childrenOf tx md.parent) }) := by
  unfold Manager.create
  rw [hchk, htx]
  by_cases hroot : isRoot md.id = true
  · simp [hroot, hcre]
  · rw [Bool.not_eq_true] at hroot
    simp [hroot, hupd, hcre]

theorem update_blob_error_eq (m : Manager) (sb : StoreBehavior)
    (md : ResourceMetadata) (content : Option Variant) (e : StoreError)
    (tx : IndexState)
    (hchk : checkContainerLeaf m.db md.id md.parent = .ok ())
    (htx : createTx (deleteResourceRows m.db md.id) md = .ok tx)
    (hupd : sb.updateDefaultRes = .ok ())
    (hcre : sb.updateRes = .error e) :
    m.update sb md content =
      (.error e,
        if isRoot md.id then { m with cache := cachePut m.cap m.cache md }
        else { m with cache := cachePut m.cap m.cache md,
                      storeListings :=
                        listingsPut m.storeListings md.parent (childrenOf tx md.parent) }) := by
  unfold Manager.update
  rw [hchk, htx]
  by_cases hroot : isRoot md.id = true
  · simp [hroot, hcre]
  · rw [Bool.not_eq_true] at hroot
    simp [hroot, hupd, hcre]

/-- C1 (amended): when `store.create` (resp. `store.update`) fails, `create`
(resp. `update`) surfaces that error unchanged and the metadata index is
exactly as before — the open transaction holding the resource, tag, variant
and fts rows is dropped without committing. The parent's child-list rewrite,
however, is a blob-store write issued before the failing call and is not
rolled back: after the failed operation the parent's stored listing is the
one computed from the uncommitted transaction. -/
theorem create_update_blob_error_rollback :
    (∀ (m : Manager) (sb : StoreBehavior) (md : ResourceMetadata)
       (content : Option Variant) (e : StoreError) (tx : IndexState),
      checkContainerLeaf m.db md.id md.parent = .ok () →
      createTx m.db md = .ok tx →
      sb.updateDefaultRes = .ok () →
      sb.createRes = .error e →
      (m.create sb md content).1 = .error e ∧
      (m.create sb md content).2.db = m.db ∧
      (isRoot md.id = false →
        (m.create sb md content).2.storeListings =
          listingsPut m.storeListings md.parent (childrenOf tx md.parent))) ∧
    (∀ (m : Manager) (sb : StoreBehavior) (md : ResourceMetadata)
       (content : Option Variant) (e : StoreError) (tx : IndexState),
      checkContainerLeaf m.db md.id md.parent = .ok () →
      createTx (deleteResourceRows m.db md.id) md = .ok tx →
      sb.updateDefaultRes = .ok () →
      sb.updateRes = .error e →
      (m.update sb md content).1 = .error e ∧
      (m.update sb md content).2.db = m.db ∧
      (isRoot md.id = false →
        (m.update sb md content).2.storeListings =
          listingsPut m.storeListings md.parent (childrenOf tx md.parent))) := by
  constructor
  · intro m sb md content e tx hchk htx hupd hcre
    rw [create_blob_error_eq m sb md content e tx hchk htx hupd hcre]
    by_cases hroot : isRoot md.id = true
    · simp [hroot]
    · rw [Bool.not_eq_true] at hroot
      simp [hroot]
  · intro m sb md content e tx hchk htx hupd hcre
    rw [update_blob_error_eq m sb md content e tx hchk htx hupd hcre]
    by_cases hroot : isRoot md.id = true
    · simp [hroot]
    · rw [Bool.not_eq_true] at hroot
      simp [hroot]

/-- C1 (counterexample to the claim as stated): after a `create` that failed
on the blob write, the index is unchanged but the parent's child-list blob
has been rewritten — the transaction drop did not undo every effect listed by
the claim. -/
theorem create_blob_error_listing_survives :
    (rootOnlyMgr.create sbCreateFails newLeafMeta none).1 = .error .io ∧
    (rootOnlyMgr.create sbCreateFails newLeafMeta none).2.db = rootOnlyMgr.db ∧
    (rootOnlyMgr.create sbCreateFails newLeafMeta none).2.storeListings =
      [(rootId, ["id-2"])] ∧
    rootOnlyMgr.storeListings = [] := by
  decide

/-- Witness for C1's amended theorem at the concrete failing create. -/
theorem create_update_blob_error_rollback_witness :
    (rootOnlyMgr.create sbCreateFails newLeafMeta none).1 = .error .io ∧
    (rootOnlyMgr.create sbCreateFails newLeafMeta none).2.db = rootOnlyMgr.db ∧
    (isRoot newLeafMeta.id = false →
      (rootOnlyMgr.create sbCreateFails newLeafMeta none).2.storeListings =
        listingsPut rootOnlyMgr.storeListings newLeafMeta.parent
          (childrenOf newLeafTx newLeafMeta.parent)) :=
  create_update_blob_error_rollback.1 rootOnlyMgr sbCreateFails newLeafMeta none
    .io newLeafTx (by decide) (by decide) rfl rfl

/-- C10: `create_metadata` fills the LRU before the index transaction
commits, so after a `create` that failed on the blob write (and therefore
rolled the index back), `get_metadata` on the new id still succeeds and
returns the never-committed metadata straight from the cache. -/
theorem create_blob_error_leaves_cached_metadata :
    ∀ (m : Manager) (sb : StoreBehavior) (md : ResourceMetadata)
      (content : Option Variant) (e : StoreError) (tx : IndexState),
      1 ≤ m.cap →
      checkContainerLeaf m.db md.id md.parent = .ok () →
      createTx m.db md = .ok tx →
      sb.updateDefaultRes = .ok () →
      sb.createRes = .error e →
      (m.create sb md content).1 = .error e ∧
      (m.create sb md content).2.db = m.db ∧
      ((m.create sb md content).2.getMetadata sb md.id).1 = .ok md := by
  intro m sb md content e tx hcap hchk htx hupd hcre
  rw [create_blob_error_eq m sb md content e tx hchk htx hupd hcre]
  obtain ⟨c', hcg⟩ := cacheGet_cachePut m.cap m.cache md hcap
  by_cases hroot : isRoot md.id = true
  · simp only [hroot, if_true]
    refine ⟨by trivial, by trivial, ?_⟩
    unfold Manager.getMetadata
    rw [hcg]
  · rw [Bool.not_eq_true] at hroot
    simp only [hroot, Bool.false_eq_true, if_false]
    refine ⟨by trivial, by trivial, ?_⟩
    unfold Manager.getMetadata
    rw [hcg]

/-- Witness for C10 at the concrete failing create over a root-only index. -/
theorem create_blob_error_leaves_cached_metadata_witness :
    (rootOnlyMgr.create sbCreateFails newLeafMeta none).1 = .error .io ∧
    (rootOnlyMgr.create sbCreateFails newLeafMeta none).2.db = rootOnlyMgr.db ∧
    ((rootOnlyMgr.create sbCreateFails newLeafMeta none).2.getMetadata
      sbCreateFails newLeafMeta.id).1 = .ok newLeafMeta :=
  create_blob_error_leaves_cached_metadata rootOnlyMgr sbCreateFails newLeafMeta
    none .io newLeafTx (by decide) (by decide) (by decide) rfl rfl

/-- C7 (amended): `visit` stores the caller's scorer with the entry appended:
the stored visit count becomes the caller's count plus one, wrapping at
`2 ^ 32` (so exactly one more than the stored value whenever the caller
passed the current metadata and no wrap occurs). The frecency is not
monotone — see the counterexample. -/
theorem visit_increments_visit_count :
    ∀ (m : Manager) (md : ResourceMetadata) (e : VisitEntry),
      ((m.visit md e).1.scorer.visit_count = (md.scorer.visit_count + 1) % 2 ^ 32) ∧
      (∀ r ∈ (m.visit md e).2.db.resources, r.id = md.id →
        r.scorer.visit_count = (md.scorer.visit_count + 1) % 2 ^ 32) := by
  intro m md e
  constructor
  · rfl
  · intro r hr hid
    unfold Manager.visit at hr
    simp only at hr
    rcases List.mem_map.mp hr with ⟨r₀, hr₀, rfl⟩
    by_cases h : r₀.id = md.id
    · simp [h, Scorer.add]
    · rw [if_neg h] at hid
      exact absurd hid h

/-- Witness for C7's amended theorem: after one more visit the stored count
is 12. -/
theorem visit_increments_visit_count_witness :
    (visitedRootMgr.visit visitedRootMeta ⟨0, .normal⟩).1.scorer.visit_count = 12 ∧
    (⟨rootId, rootId, .container, strOfString "/", 0, 0,
       Scorer.add elevenVeryHigh ⟨0, .normal⟩⟩ : RRow).scorer.visit_count = 12 :=
  ⟨((visit_increments_visit_count visitedRootMgr visitedRootMeta ⟨0, .normal⟩).1).trans
      (by decide),
   (((visit_increments_visit_count visitedRootMgr visitedRootMeta ⟨0, .normal⟩).2
      ⟨rootId, rootId, .container, strOfString "/", 0, 0,
        Scorer.add elevenVeryHigh ⟨0, .normal⟩⟩ (by decide) (by decide))).trans
      (by decide)⟩

/-- C7 (counterexample): a visit whose entry is 100 days old with normal
priority evicts a fresh very-high entry, and the frecency drops from 2200 to
2172 — `visit` can decrease `frecency()`. -/
theorem visit_frecency_can_decrease :
    Scorer.frecency 0 visitedRootMeta.scorer = 2200 ∧
    Scorer.frecency 0
      ((visitedRootMgr.visit visitedRootMeta ⟨-8640000000000, .normal⟩).1.scorer) = 2172 ∧
    (visitedRootMgr.visit visitedRootMeta ⟨-8640000000000, .normal⟩).2.db.resources =
      [⟨rootId, rootId, .container, strOfString "/", 0, 0,
        Scorer.add elevenVeryHigh ⟨-8640000000000, .normal⟩⟩] ∧
    Scorer.frecency 0 (Scorer.add elevenVeryHigh ⟨-8640000000000, .normal⟩) = 2172 ∧
    (2172 : Nat) < 2200 := by
  decide

theorem weight_for_cases (now ts : Int) :
    weight_for now ts = 100 ∨ weight_for now ts = 70 ∨ weight_for now ts = 50 ∨
    weight_for now ts = 30 ∨ weight_for now ts = 10 := by
  simp only [weight_for]
  split_ifs <;> simp

theorem hundred_dvd_point (now : Int) (e : VisitEntry) :
    100 ∣ e.priority.bonus * weight_for now e.timestamp := by
  rcases weight_for_cases now e.timestamp with h | h | h | h | h <;>
    rw [h] <;> cases e.priority <;> decide

theorem specPoint_eq_pointNat (now : Int) (e : VisitEntry) :
    specPoint now e = (pointNat now e : ℚ) := by
  unfold specPoint pointNat
  rw [Nat.cast_div (hundred_dvd_point now e) (by norm_num)]
  push_cast
  ring

theorem sum_specPoint (now : Int) (l : List VisitEntry) :
    (l.map (specPoint now)).sum = ((l.map (pointNat now)).sum : ℚ) := by
  induction l with
  | nil => simp
  | cons e t ih =>
    simp only [List.map_cons, List.sum_cons, ih, specPoint_eq_pointNat]
    push_cast
    ring

theorem roundHalfUp_natCast (n : Nat) : roundHalfUp (n : ℚ) = (n : ℤ) := by
  unfold roundHalfUp
  have h1 : (n : ℤ) ≤ Rat.floor ((n : ℚ) + 1 / 2) := by
    rw [Rat.le_floor]
    push_cast
    linarith
  have h2 : ¬ ((n : ℤ) + 1 ≤ Rat.floor ((n : ℚ) + 1 / 2)) := by
    rw [Rat.le_floor]
    push_cast
    intro hc
    linarith
  omega

theorem specSum_eq_natSum (now : Int) (s : Scorer) :
    specSum now s = ((s.entries.map (pointNat now)).sum : ℚ) :=
  sum_specPoint now s.entries

/-- C3 (amended): `frecency()` of an empty log is 0; for a non-empty log it
is `floor((visit_count * round(sum of bonus * age_weight / 100)) mod 2 ^ 32 /
number of entries)` — the u32 multiplication wraps. Whenever the product does
not overflow this is exactly the claimed floor formula, and the three
concrete values 2000, 170 and 205 hold. The rational `specSum` and
`roundHalfUp` spell out the spec's summation and f32 half-away-from-zero
rounding; the log bound MAX_VISIT_ENTRIES = 10 keeps the f32 sum exact. -/
theorem frecency_matches_spec_formula :
    (∀ (now : Int) (vc : Nat), Scorer.frecency now ⟨vc, []⟩ = 0) ∧
    (∀ (now : Int) (s : Scorer), s.entries ≠ [] →
      Scorer.frecency now s =
        s.visit_count * (roundHalfUp (specSum now s)).toNat % 2 ^ 32 /
          s.entries.length) ∧
    (∀ (now : Int) (s : Scorer), s.entries ≠ [] →
      s.visit_count * (roundHalfUp (specSum now s)).toNat < 2 ^ 32 →
      Scorer.frecency now s =
        s.visit_count * (roundHalfUp (specSum now s)).toNat / s.entries.length) ∧
    Scorer.frecency 0
      ((List.range 10).foldl (fun sc _ => sc.add ⟨0, .veryHigh⟩) Scorer.init) = 2000 ∧
    Scorer.frecency 0 ((Scorer.init.add ⟨0, .normal⟩).add ⟨-864000000000, .normal⟩) = 170 ∧
    Scorer.frecency 0 ((Scorer.init.add ⟨0, .normal⟩).add ⟨-864000000000, .high⟩) = 205 := by
  have hmod : ∀ (now : Int) (s : Scorer), s.entries ≠ [] →
      Scorer.frecency now s =
        s.visit_count * (roundHalfUp (specSum now s)).toNat % 2 ^ 32 /
          s.entries.length := by
    intro now s hne
    have hfalse : s.entries.isEmpty = false := by
      simp [List.isEmpty_iff, hne]
    unfold Scorer.frecency
    rw [hfalse, specSum_eq_natSum, roundHalfUp_natCast, Int.toNat_natCast]
    simp only [Bool.false_eq_true, if_false]
  refine ⟨?_, hmod, ?_, by decide, by decide, by decide⟩
  · intro now vc
    rfl
  · intro now s hne hlt
    rw [hmod now s hne, Nat.mod_eq_of_lt hlt]

/-- Witness for C3's amended theorem at a one-entry scorer. -/
theorem frecency_matches_spec_formula_witness :
    Scorer.frecency 0 ⟨3, [⟨0, .normal⟩]⟩ =
      3 * (roundHalfUp (specSum 0 ⟨3, [⟨0, .normal⟩]⟩)).toNat / 1 :=
  frecency_matches_spec_formula.2.2.1 0 ⟨3, [⟨0, .normal⟩]⟩ (by decide)
    (by rw [specSum_eq_natSum, roundHalfUp_natCast, Int.toNat_natCast]; decide)

/-- C3 (counterexample to the claim as stated): at visit count `2 ^ 32 - 1`
the u32 product wraps, so `frecency()` is 4294967196 while the claimed floor
formula gives 429496729500. -/
theorem isCharBoundary_ascii (w : List Nat) (hA : ∀ b ∈ w, b < 0x80) (i : Nat)
    (hi : i ≤ w.length) : isCharBoundary w i = true := by
  unfold isCharBoundary
  split
  · rfl
  · split
    · rename_i hlt
      have hb : w[i] < 128 := by
        simpa using hA (w.get ⟨i, hlt⟩) (w.get_mem i hlt)
      simp
      omega
    · simp only [decide_eq_true_eq]
      omega

theorem strGet_ascii (w : List Nat) (hA : ∀ b ∈ w, b < 0x80) (pos len : Nat)
    (h : pos + len ≤ w.length) :
    strGet w pos len = some ((w.drop pos).take len) := by
  unfold strGet
  rw [if_pos]
  simp [h, isCharBoundary_ascii w hA pos (by omega),
    isCharBoundary_ascii w hA (pos + len) h]

theorem posFold_ascii (w : List Nat) (hA : ∀ b ∈ w, b < 0x80) (len : Nat) :
    ∀ (ps : List Nat), (∀ p ∈ ps, p + len ≤ w.length) →
    ∀ (sr : List (List Nat) × List (List Nat)), (∀ x, x ∈ sr.1 ↔ x ∈ sr.2) →
      (ps.foldl (posStep w len) (false, sr)).1 = false ∧
      (∀ x, x ∈ (ps.foldl (posStep w len) (false, sr)).2.1 ↔
            x ∈ (ps.foldl (posStep w len) (false, sr)).2.2) ∧
      (∀ x, x ∈ (ps.foldl (posStep w len) (false, sr)).2.2 ↔
            x ∈ sr.2 ∨ ∃ p ∈ ps, (w.drop p).take len = x) := by
  intro ps
  induction ps with
  | nil =>
    intro _ sr hinv
    exact ⟨rfl, hinv, by simp⟩
  | cons p rest ih =>
    intro hps sr hinv
    have hple : p + len ≤ w.length := hps p (List.mem_cons_self p rest)
    have hstep : posStep w len (false, sr) p =
        (false,
          if (w.drop p).take len ∈ sr.1 then sr
          else ((w.drop p).take len :: sr.1, sr.2 ++ [(w.drop p).take len])) := by
      unfold posStep
      rw [if_neg (by simp), if_neg (by omega), strGet_ascii w hA p len hple]
      split
      · rename_i hmem'
        cases hmem'
      · rename_i sub hmem'
        injection hmem' with hmem'
        subst hmem'
        by_cases hm2 : (w.drop p).take len ∈ sr.1
        · rw [if_pos hm2, if_pos hm2]
        · rw [if_neg hm2, if_neg hm2]
    rw [List.foldl_cons, hstep]
    by_cases hmem : (w.drop p).take len ∈ sr.1
    · rw [if_pos hmem]
      obtain ⟨h1, h2, h3⟩ := ih (fun q hq => hps q (List.mem_cons_of_mem p hq)) sr hinv
      refine ⟨h1, h2, ?_⟩
      intro x
      rw [h3 x]
      constructor
      · rintro (hx | ⟨q, hq, hqx⟩)
        · exact Or.inl hx
        · exact Or.inr ⟨q, List.mem_cons_of_mem p hq, hqx⟩
      · rintro (hx | ⟨q, hq, hqx⟩)
        · exact Or.inl hx
        · rcases List.mem_cons.mp hq with rfl | hq'
          · exact Or.inl (by rw [← hqx]; exact (hinv _).mp hmem)
          · exact Or.inr ⟨q, hq', hqx⟩
    · rw [if_neg hmem]
      have hinv' : ∀ x, x ∈ (w.drop p).take len :: sr.1 ↔
          x ∈ sr.2 ++ [(w.drop p).take len] := by
        intro x
        simp only [List.mem_cons, List.mem_append, List.mem_singleton]
        rw [hinv x]
        tauto
      obtain ⟨h1, h2, h3⟩ := ih (fun q hq => hps q (List.mem_cons_of_mem p hq))
        ((w.drop p).take len :: sr.1, sr.2 ++ [(w.drop p).take len]) hinv'
      refine ⟨h1, h2, ?_⟩
      intro x
      rw [h3 x]
      simp only [List.mem_append, List.mem_singleton]
      constructor
      · rintro ((hx | hx) | ⟨q, hq, hqx⟩)
        · exact Or.inl hx
        · exact Or.inr ⟨p, List.mem_cons_self p rest, hx.symm⟩
        · exact Or.inr ⟨q, List.mem_cons_of_mem p hq, hqx⟩
      · rintro (hx | ⟨q, hq, hqx⟩)
        · exact Or.inl (Or.inl hx)
        · rcases List.mem_cons.mp hq with rfl | hq'
          · exact Or.inl (Or.inr hqx.symm)
          · exact Or.inr ⟨q, hq', hqx⟩

theorem posLoop_ascii (w : List Nat) (hA : ∀ b ∈ w, b < 0x80) (len : Nat)
    (hlen : len ≤ w.length)
    (sr : List (List Nat) × List (List Nat)) (hinv : ∀ x, x ∈ sr.1 ↔ x ∈ sr.2) :
    (∀ x, x ∈ (posLoop w len sr).1 ↔ x ∈ (posLoop w len sr).2) ∧
    (∀ x, x ∈ (posLoop w len sr).2 ↔
      x ∈ sr.2 ∨ ∃ p, p + len ≤ w.length ∧ (w.drop p).take len = x) := by
  have hps : ∀ p ∈ List.range (w.length - len + 1), p + len ≤ w.length := by
    intro p hp
    rw [List.mem_range] at hp
    omega
  obtain ⟨_, h2, h3⟩ := posFold_ascii w hA len (List.range (w.length - len + 1)) hps sr hinv
  unfold posLoop
  refine ⟨h2, ?_⟩
  intro x
  rw [h3 x]
  constructor
  · rintro (hx | ⟨p, hp, hpx⟩)
    · exact Or.inl hx
    · exact Or.inr ⟨p, hps p hp, hpx⟩
  · rintro (hx | ⟨p, hp, hpx⟩)
    · exact Or.inl hx
    · exact Or.inr ⟨p, by rw [List.mem_range]; omega, hpx⟩

theorem lenFold_ascii (w : List Nat) (hA : ∀ b ∈ w, b < 0x80) :
    ∀ (ls : List Nat), (∀ l ∈ ls, l ≤ w.length) →
    ∀ (sr : List (List Nat) × List (List Nat)), (∀ x, x ∈ sr.1 ↔ x ∈ sr.2) →
      (∀ x, x ∈ (ls.foldl (fun sr len => posLoop w len sr) sr).1 ↔
            x ∈ (ls.foldl (fun sr len => posLoop w len sr) sr).2) ∧
      (∀ x, x ∈ (ls.foldl (fun sr len => posLoop w len sr) sr).2 ↔
        x ∈ sr.2 ∨ ∃ len ∈ ls, ∃ p, p + len ≤ w.length ∧ (w.drop p).take len = x) := by
  intro ls
  induction ls with
  | nil =>
    intro _ sr hinv
    exact ⟨hinv, by simp⟩
  | cons l rest ih =>
    intro hls sr hinv
    have hlle : l ≤ w.length := hls l (List.mem_cons_self l rest)
    obtain ⟨hpi, hpm⟩ := posLoop_ascii w hA l hlle sr hinv
    rw [List.foldl_cons]
    obtain ⟨h1, h2⟩ := ih (fun q hq => hls q (List.mem_cons_of_mem l hq)) _ hpi
    refine ⟨h1, ?_⟩
    intro x
    rw [h2 x, hpm x]
    constructor
    · rintro ((hx | ⟨p, hp, hpx⟩) | ⟨len, hlen, p, hp, hpx⟩)
      · exact Or.inl hx
      · exact Or.inr ⟨l, List.mem_cons_self l rest, p, hp, hpx⟩
      · exact Or.inr ⟨len, List.mem_cons_of_mem l hlen, p, hp, hpx⟩
    · rintro (hx | ⟨len, hlen, p, hp, hpx⟩)
      · exact Or.inl (Or.inl hx)
      · rcases List.mem_cons.mp hlen with rfl | hlen'
        · exact Or.inl (Or.inr ⟨p, hp, hpx⟩)
        · exact Or.inr ⟨len, hlen', p, hp, hpx⟩

theorem strBytes_ascii (w : Str) (hA : ∀ ch ∈ w, ch < 0x80) : strBytes w = w := by
  induction w with
  | nil => rfl
  | cons c rest ih =>
    have hc : c < 0x80 := hA c (List.mem_cons_self c rest)
    have hrest := ih (fun ch hch => hA ch (List.mem_cons_of_mem c hch))
    have henc : encodeChar c = [c] := by
      unfold encodeChar
      rw [if_pos hc]
    unfold strBytes
    simp only [List.map_cons, List.flatten_cons, henc]
    unfold strBytes at hrest
    rw [hrest]
    rfl

theorem ngramsFold_ascii
    (ws : List Str) (hA : ∀ w ∈ ws, ∀ ch ∈ w, ch < 0x80) :
    ∀ (sr : List (List Nat) × List (List Nat)), (∀ x, x ∈ sr.1 ↔ x ∈ sr.2) →
      (∀ x, x ∈ (ws.foldl (fun sr w => lenLoop (strBytes w) 5 sr) sr).1 ↔
            x ∈ (ws.foldl (fun sr w => lenLoop (strBytes w) 5 sr) sr).2) ∧
      (∀ x, x ∈ (ws.foldl (fun sr w => lenLoop (strBytes w) 5 sr) sr).2 ↔
        x ∈ sr.2 ∨ ∃ w ∈ ws, ∃ len, 1 ≤ len ∧ len ≤ min 5 w.length ∧
          ∃ p, p + len ≤ w.length ∧ (w.drop p).take len = x) := by
  induction ws with
  | nil =>
    intro sr hinv
    exact ⟨hinv, by simp⟩
  | cons w rest ih =>
    intro sr hinv
    have hAw := hA w (List.mem_cons_self w rest)
    have hbw : strBytes w = w := strBytes_ascii w hAw
    have hlen : ∀ l ∈ List.range' 1 (min 5 w.length), l ≤ w.length := by
      intro l hl
      rw [List.mem_range'_1] at hl
      omega
    obtain ⟨h1, h2⟩ := lenFold_ascii w hAw (List.range' 1 (min 5 w.length)) hlen sr hinv
    have hinit : lenLoop (strBytes w) 5 sr =
        (List.range' 1 (min 5 w.length)).foldl (fun sr len => posLoop w len sr) sr := by
      unfold lenLoop
      rw [hbw]
    rw [List.foldl_cons, hinit]
    obtain ⟨g1, g2⟩ := ih (fun v hv => hA v (List.mem_cons_of_mem w hv))
      ((List.range' 1 (min 5 w.length)).foldl (fun sr len => posLoop w len sr) sr) h1
    refine ⟨g1, ?_⟩
    intro x
    rw [g2 x, h2 x]
    constructor
    · rintro ((hx | ⟨len, hlen', p, hp, hpx⟩) | ⟨v, hv, len, hl1, hl2, p, hp, hpx⟩)
      · exact Or.inl hx
      · rw [List.mem_range'_1] at hlen'
        exact Or.inr ⟨w, List.mem_cons_self w rest, len, by omega, by omega, p, hp, hpx⟩
      · exact Or.inr ⟨v, List.mem_cons_of_mem w hv, len, hl1, hl2, p, hp, hpx⟩
    · rintro (hx | ⟨v, hv, len, hl1, hl2, p, hp, hpx⟩)
      · exact Or.inl (Or.inl hx)
      · rcases List.mem_cons.mp hv with rfl | hv'
        · exact Or.inl (Or.inr ⟨len, by rw [List.mem_range'_1]; omega, p, hp, hpx⟩)
        · exact Or.inr ⟨v, hv', len, hl1, hl2, p, hp, hpx⟩

theorem foldDiacritic_ascii (c : Nat) (hc : c < 0x80) : foldDiacritic c = [c] := by
  have htab : ∀ p ∈ diacriticsTable, 0xC0 ≤ p.1 := by decide
  have hnone : diacriticsTable.find? (fun p => p.1 = c) = none := by
    rw [List.find?_eq_none]
    intro p hp
    have := htab p hp
    simp only [decide_eq_true_eq]
    omega
  unfold foldDiacritic
  rw [hnone]

theorem removeDiacritics_ascii (s : Str) (hA : ∀ c ∈ s, c < 0x80) :
    removeDiacritics s = s := by
  induction s with
  | nil => rfl
  | cons c rest ih =>
    unfold removeDiacritics
    simp only [List.map_cons, List.flatten_cons]
    rw [foldDiacritic_ascii c (hA c (List.mem_cons_self c rest))]
    have hr := ih (fun d hd => hA d (List.mem_cons_of_mem c hd))
    unfold removeDiacritics at hr
    rw [hr]
    rfl

theorem toLowerChar_ascii (c : Nat) (hc : c < 0x80) : toLowerChar c < 0x80 := by
  unfold toLowerChar
  split_ifs with h1 h2 h3 h4 h5 h6 h7 h8 <;>
    simp_all <;> omega

theorem splitWsGo_subset :
    ∀ (s cur : Str) (t : Str), t ∈ splitWsGo s cur → ∀ ch ∈ t, ch ∈ s ∨ ch ∈ cur := by
  intro s
  induction s with
  | nil =>
    intro cur t ht ch hch
    unfold splitWsGo at ht
    by_cases hcur : cur.isEmpty = true
    · rw [if_pos hcur] at ht
      cases ht
    · rw [if_neg hcur] at ht
      rw [List.mem_singleton] at ht
      subst ht
      exact Or.inr (List.mem_reverse.mp hch)
  | cons c rest ih =>
    intro cur t ht ch hch
    unfold splitWsGo at ht
    by_cases hws : isWsCp c = true
    · rw [if_pos hws] at ht
      by_cases hcur : cur.isEmpty = true
      · rw [if_pos hcur] at ht
        rcases ih [] t ht ch hch with h | h
        · exact Or.inl (List.mem_cons_of_mem c h)
        · cases h
      · rw [if_neg hcur] at ht
        rcases List.mem_cons.mp ht with rfl | ht'
        · exact Or.inr (List.mem_reverse.mp hch)
        · rcases ih [] t ht' ch hch with h | h
          · exact Or.inl (List.mem_cons_of_mem c h)
          · cases h
    · rw [if_neg hws] at ht
      rcases ih (c :: cur) t ht ch hch with h | h
      · exact Or.inl (List.mem_cons_of_mem c h)
      · rcases List.mem_cons.mp h with rfl | h'
        · exact Or.inl (List.mem_cons_self _ _)
        · exact Or.inr h'

theorem trimStr_subset (s : Str) : ∀ ch ∈ trimStr s, ch ∈ s := by
  intro ch hch
  unfold trimStr at hch
  rw [List.mem_reverse] at hch
  have h1 := (List.dropWhile_sublist _).subset hch
  rw [List.mem_reverse] at h1
  exact (List.dropWhile_sublist _).subset h1

theorem preprocess_ascii (text : Str) (hA : ∀ ch ∈ text, ch < 0x80) :
    ∀ w ∈ preprocessText text, ∀ ch ∈ w, ch < 0x80 := by
  intro w hw ch hch
  unfold preprocessText at hw
  rcases List.mem_map.mp hw with ⟨t, ht, rfl⟩
  have hch' : ch ∈ t := trimStr_subset t ch hch
  unfold splitWs at ht
  have hmem := splitWsGo_subset (toLowercase (removeDiacritics text)) [] t ht ch hch'
  rcases hmem with h | h
  · rw [removeDiacritics_ascii text hA] at h
    unfold toLowercase at h
    rcases List.mem_map.mp h with ⟨c, hc, rfl⟩
    exact toLowerChar_ascii c (hA c hc)
  · cases h

theorem substring_infix_iff (w s : List Nat) :
    (∃ len, 1 ≤ len ∧ len ≤ min 5 w.length ∧
      ∃ p, p + len ≤ w.length ∧ (w.drop p).take len = s) ↔
    (s ≠ [] ∧ s.length ≤ 5 ∧ s <:+: w) := by
  constructor
  · rintro ⟨len, hl1, hl2, p, hp, rfl⟩
    have hlen : ((w.drop p).take len).length = len := by
      rw [List.length_take, List.length_drop]
      omega
    refine ⟨?_, ?_, ?_⟩
    · intro hnil
      rw [hnil] at hlen
      simp at hlen
      omega
    · rw [hlen]
      omega
    · refine ⟨w.take p, (w.drop p).drop len, ?_⟩
      rw [List.append_assoc, List.take_append_drop, List.take_append_drop]

  · rintro ⟨hne, hle, pre, suf, heq⟩
    refine ⟨s.length, ?_, ?_, pre.length, ?_, ?_⟩
    · cases s with
      | nil => exact absurd rfl hne
      | cons a t => simp
    · have : w.length = pre.length + s.length + suf.length := by
        rw [← heq]
        simp [List.length_append]
        omega
      omega
    · have : w.length = pre.length + s.length + suf.length := by
        rw [← heq]
        simp [List.length_append]
        omega
      omega
    · rw [← heq, List.append_assoc, List.drop_left, List.take_left]

theorem find?_map_bump (acc : List (ResourceId × Nat × Nat)) (rid X : ResourceId) :
    (acc.map (fun p => if p.1 = rid then (p.1, p.2.1 + 1, p.2.2) else p)).find?
        (fun p => p.1 = X) =
      (acc.find? (fun p => p.1 = X)).map
        (fun p => if p.1 = rid then (p.1, p.2.1 + 1, p.2.2) else p) := by
  induction acc with
  | nil => rfl
  | cons a t ih =>
    have hkey : (if a.1 = rid then (a.1, a.2.1 + 1, a.2.2) else a).1 = a.1 := by
      by_cases h : a.1 = rid
      · rw [if_pos h]
      · rw [if_neg h]
    by_cases hX : a.1 = X
    · rw [List.map_cons, List.find?_cons_of_pos _ (by rw [hkey, hX]; simp),
        List.find?_cons_of_pos _ (by simp [hX])]
      rfl
    · rw [List.map_cons, List.find?_cons_of_neg _ (by rw [hkey]; simp [hX]),
        List.find?_cons_of_neg _ (by simp [hX]), ih]

theorem countOf_bumpOne (acc : List (ResourceId × Nat × Nat))
    (rec : ResourceId × Nat) (X : ResourceId) :
    countOf (bumpOne acc rec) X =
      countOf acc X + (if rec.1 = X then 1 else 0) := by
  unfold bumpOne countOf
  by_cases hpres : acc.any (fun p => p.1 = rec.1) = true
  · rw [if_pos hpres, find?_map_bump]
    rcases hf : acc.find? (fun p => p.1 = X) with _ | p
    · rw [hf]
      simp only [Option.map_none']
      by_cases hX : rec.1 = X
      · subst hX
        rw [List.find?_eq_none] at hf
        rw [List.any_eq_true] at hpres
        obtain ⟨p, hp, hp1⟩ := hpres
        exact absurd hp1 (by simpa using hf p hp)
      · rw [if_neg hX]
    · rw [hf]
      simp only [Option.map_some']
      have hp1 : p.1 = X := by simpa using List.find?_some hf
      by_cases hX : rec.1 = X
      · rw [if_pos hX, if_pos (by rw [hp1, hX])]
      · rw [if_neg hX, if_neg (by rw [hp1]; exact fun h => hX h.symm)]
        omega
  · rw [if_neg hpres, List.find?_append]
    rcases hf : acc.find? (fun p => p.1 = X) with _ | p
    · rw [hf]
      simp only [Option.none_orElse]
      by_cases hX : rec.1 = X
      · rw [List.find?_cons_of_pos _ (by simp [hX]), if_pos hX]
        simp [Option.none_or]
      · rw [List.find?_cons_of_neg _ (by simp [hX]), if_neg hX]
        rfl
    · have hp1 : p.1 = X := by simpa using List.find?_some hf
      by_cases hX : rec.1 = X
      · subst hX
        exact absurd (List.any_eq_true.mpr
          ⟨p, List.mem_of_find?_eq_some hf, by simp [hp1]⟩) hpres
      · rw [hf, if_neg hX]
        simp [Option.or]

theorem bumpOne_keys (acc : List (ResourceId × Nat × Nat)) (rec : ResourceId × Nat) :
    (bumpOne acc rec).map (fun p => p.1) =
      if acc.any (fun p => p.1 = rec.1) then acc.map (fun p => p.1)
      else acc.map (fun p => p.1) ++ [rec.1] := by
  unfold bumpOne
  by_cases hpres : acc.any (fun p => p.1 = rec.1) = true
  · rw [if_pos hpres, if_pos hpres, List.map_map]
    refine List.map_congr_left ?_
    intro p _
    by_cases h : p.1 = rec.1
    · simp [h]
    · simp [h]
  · rw [if_neg hpres, if_neg hpres, List.map_append]
    rfl

theorem bumpOne_keys_nodup (acc : List (ResourceId × Nat × Nat))
    (rec : ResourceId × Nat) (h : (acc.map (fun p => p.1)).Nodup) :
    ((bumpOne acc rec).map (fun p => p.1)).Nodup := by
  rw [bumpOne_keys]
  by_cases hpres : acc.any (fun p => p.1 = rec.1) = true
  · rw [if_pos hpres]
    exact h
  · rw [if_neg hpres]
    rw [List.nodup_append]
    refine ⟨h, List.nodup_singleton _, ?_⟩
    intro x hx
    rcases List.mem_map.mp hx with ⟨p, hp, rfl⟩
    simp only [List.mem_singleton]
    intro hc
    exact hpres (List.any_eq_true.mpr ⟨p, hp, by simp [hc]⟩)

theorem bumpOne_min_count (acc : List (ResourceId × Nat × Nat))
    (rec : ResourceId × Nat) (h : ∀ p ∈ acc, 1 ≤ p.2.1) :
    ∀ p ∈ bumpOne acc rec, 1 ≤ p.2.1 := by
  unfold bumpOne
  by_cases hpres : acc.any (fun p => p.1 = rec.1) = true
  · rw [if_pos hpres]
    intro p hp
    rcases List.mem_map.mp hp with ⟨q, hq, rfl⟩
    by_cases hqr : q.1 = rec.1
    · simp only [if_pos hqr]
      omega
    · simp only [if_neg hqr]
      exact h q hq
  · rw [if_neg hpres]
    intro p hp
    rcases List.mem_append.mp hp with hp | hp
    · exact h p hp
    · rw [List.mem_singleton] at hp
      subst hp
      exact le_refl 1

theorem countOf_recordsFold (records : List (ResourceId × Nat)) :
    ∀ (acc : List (ResourceId × Nat × Nat)) (X : ResourceId),
      (records.map (fun r => r.1)).Nodup →
      countOf (records.foldl bumpOne acc) X =
        countOf acc X + (if records.any (fun r => r.1 = X) then 1 else 0) := by
  induction records with
  | nil =>
    intro acc X _
    simp
  | cons r rs ih =>
    intro acc X hnd
    rw [List.map_cons, List.nodup_cons] at hnd
    rw [List.foldl_cons, ih (bumpOne acc r) X hnd.2, countOf_bumpOne, List.any_cons]
    by_cases hrX : r.1 = X
    · have hrs : rs.any (fun q => q.1 = X) = false := by
        rw [Bool.eq_false_iff]
        intro hc
        rcases List.any_eq_true.mp hc with ⟨q, hq, hq1⟩
        have hq1' : q.1 = X := by simpa using hq1
        exact hnd.1 (by
          rw [hrX, ← hq1']
          exact List.mem_map_of_mem (fun r => r.1) hq)
      simp [hrX, hrs]
    · have hd : (decide (r.1 = X)) = false := by simp [hrX]
      rw [hd, Bool.false_or, if_neg hrX]
      simp

theorem recordsFold_keys_nodup (records : List (ResourceId × Nat)) :
    ∀ acc, ((acc : List (ResourceId × Nat × Nat)).map (fun p => p.1)).Nodup →
      ((records.foldl bumpOne acc).map (fun p => p.1)).Nodup := by
  induction records with
  | nil =>
    intro acc h
    exact h
  | cons r rs ih =>
    intro acc h
    rw [List.foldl_cons]
    exact ih _ (bumpOne_keys_nodup acc r h)

theorem recordsFold_min_count (records : List (ResourceId × Nat)) :
    ∀ acc, (∀ p ∈ (acc : List (ResourceId × Nat × Nat)), 1 ≤ p.2.1) →
      ∀ p ∈ records.foldl bumpOne acc, 1 ≤ p.2.1 := by
  induction records with
  | nil =>
    intro acc h
    exact h
  | cons r rs ih =>
    intro acc h
    rw [List.foldl_cons]
    exact ih _ (bumpOne_min_count acc r h)

theorem countOf_nil (X : ResourceId) : countOf [] X = 0 := rfl

theorem wordRecords_keys_nodup (now : Int) (db : IndexState) (tag : Option String)
    (w : List Nat) (hnd : (db.resources.map (fun r => r.id)).Nodup) :
    ((wordRecords now db tag w).map (fun r => r.1)).Nodup := by
  unfold wordRecords
  rw [List.map_map]
  exact ((List.filter_sublist db.resources).map (fun r => r.id)).nodup hnd

theorem wordsFold_keys_nodup (now : Int) (db : IndexState) (tag : Option String)
    (_hnd : (db.resources.map (fun r => r.id)).Nodup) :
    ∀ (ws : List (List Nat)) (acc : List (ResourceId × Nat × Nat)),
      (acc.map (fun p => p.1)).Nodup →
      (((ws.foldl (fun a w => (wordRecords now db tag w).foldl bumpOne a) acc)).map
        (fun p => p.1)).Nodup := by
  intro ws
  induction ws with
  | nil =>
    intro acc h
    exact h
  | cons w rest ih =>
    intro acc h
    rw [List.foldl_cons]
    exact ih _ (recordsFold_keys_nodup (wordRecords now db tag w) acc h)

theorem wordsFold_min_count (now : Int) (db : IndexState) (tag : Option String) :
    ∀ (ws : List (List Nat)) (acc : List (ResourceId × Nat × Nat)),
      (∀ p ∈ acc, 1 ≤ p.2.1) →
      ∀ p ∈ ws.foldl (fun a w => (wordRecords now db tag w).foldl bumpOne a) acc,
        1 ≤ p.2.1 := by
  intro ws
  induction ws with
  | nil =>
    intro acc h
    exact h
  | cons w rest ih =>
    intro acc h
    rw [List.foldl_cons]
    exact ih _ (recordsFold_min_count (wordRecords now db tag w) acc h)

theorem countOf_wordsFold (now : Int) (db : IndexState) (tag : Option String)
    (hnd : (db.resources.map (fun r => r.id)).Nodup) :
    ∀ (ws : List (List Nat)) (acc : List (ResourceId × Nat × Nat)) (X : ResourceId),
      countOf (ws.foldl (fun a w => (wordRecords now db tag w).foldl bumpOne a) acc) X =
        countOf acc X + (ws.filter (fun w => wordMatches now db tag X w)).length := by
  intro ws
  induction ws with
  | nil =>
    intro acc X
    simp
  | cons w rest ih =>
    intro acc X
    rw [List.foldl_cons, ih,
      countOf_recordsFold (wordRecords now db tag w) acc X
        (wordRecords_keys_nodup now db tag w hnd),
      List.filter_cons]
    by_cases hm : wordMatches now db tag X w = true
    · have hm' : (wordRecords now db tag w).any (fun r => r.1 = X) = true := hm
      rw [hm', if_pos hm]
      simp only [eq_self_iff_true, if_true, List.length_cons]
      omega
    · have hm' : (wordRecords now db tag w).any (fun r => r.1 = X) = false := by
        rw [Bool.eq_false_iff]
        exact hm
      rw [hm', if_neg hm]
      simp

theorem find?_of_mem_keys_nodup :
    ∀ (acc : List (ResourceId × Nat × Nat)) (p : ResourceId × Nat × Nat),
      p ∈ acc → (acc.map (fun q => q.1)).Nodup → ∀ X, p.1 = X →
      acc.find? (fun q => q.1 = X) = some p := by
  intro acc
  induction acc with
  | nil =>
    intro p hp
    cases hp
  | cons a t ih =>
    intro p hp hnd X hpX
    rw [List.map_cons, List.nodup_cons] at hnd
    rcases List.mem_cons.mp hp with rfl | hp'
    · rw [List.find?_cons_of_pos _ (by simp [hpX])]
    · have haX : ¬ a.1 = X := by
        intro hc
        exact hnd.1 (by
          rw [hc, ← hpX]
          exact List.mem_map_of_mem (fun q => q.1) hp')
      rw [List.find?_cons_of_neg _ (by simp [haX])]
      exact ih p hp' hnd.2 X hpX

theorem wordMatches_none_iff (now : Int) (db : IndexState) (X : ResourceId)
    (w : List Nat) :
    wordMatches now db none X w = true ↔
      ((∃ r ∈ db.resources, r.id = X) ∧ (X, w) ∈ db.fts) := by
  unfold wordMatches wordRecords
  rw [List.any_eq_true]
  constructor
  · rintro ⟨rec, hrec, hrX⟩
    rcases List.mem_map.mp hrec with ⟨r, hrf, rfl⟩
    have hrX' : r.id = X := by simpa using hrX
    have hfil := List.mem_filter.mp hrf
    refine ⟨⟨r, hfil.1, hrX'⟩, ?_⟩
    rw [← hrX']
    have hpred := hfil.2
    simp only [Bool.and_eq_true, decide_eq_true_eq] at hpred
    exact hpred.1
  · rintro ⟨⟨r, hr, hrX⟩, hfts⟩
    refine ⟨(r.id, frecOfRow now r), ?_, by simp [hrX]⟩
    refine List.mem_map.mpr ⟨r, List.mem_filter.mpr ⟨hr, ?_⟩, rfl⟩
    simp only [Bool.and_eq_true, decide_eq_true_eq]
    exact ⟨by rw [hrX]; exact hfts, trivial⟩

theorem truncateAll_spec :
    ∀ (ws : List Str) (ts : List (List Nat)), truncateAll ws = some ts →
      ts.length = ws.length ∧
      (∀ w ∈ ws, ∃ t ∈ ts, truncateWord 5 (strBytes w) = some t) ∧
      (∀ t ∈ ts, ∃ w ∈ ws, truncateWord 5 (strBytes w) = some t) := by
  intro ws
  induction ws with
  | nil =>
    intro ts hts
    unfold truncateAll at hts
    injection hts with hts
    subst hts
    exact ⟨rfl, by simp, by simp⟩
  | cons w rest ih =>
    intro ts hts
    unfold truncateAll at hts
    rcases htw : truncateWord 5 (strBytes w) with _ | t
    · rw [htw] at hts
      cases hts
    · rw [htw] at hts
      rcases htr : truncateAll rest with _ | ts₀
      · rw [htr] at hts
        cases hts
      · rw [htr] at hts
        injection hts with hts
        subst hts
        obtain ⟨hl, hfwd, hbwd⟩ := ih ts₀ htr
        refine ⟨by simp [hl], ?_, ?_⟩
        · intro v hv
          rcases List.mem_cons.mp hv with rfl | hv'
          · exact ⟨t, List.mem_cons_self t ts₀, htw⟩
          · obtain ⟨t', ht', htt'⟩ := hfwd v hv'
            exact ⟨t', List.mem_cons_of_mem t ht', htt'⟩
        · intro u hu
          rcases List.mem_cons.mp hu with rfl | hu'
          · exact ⟨w, List.mem_cons_self w rest, htw⟩
          · obtain ⟨v, hv, hvu⟩ := hbwd u hu'
            exact ⟨v, List.mem_cons_of_mem w hv, hvu⟩

theorem isWsCp_eq_false_of (x : Nat)
    (hx : (0x21 ≤ x ∧ x ≤ 0x7A) ∨ (0xE0 ≤ x ∧ x ≤ 0x192)) :
    isWsCp x = false := by
  rw [Bool.eq_false_iff]
  intro hc
  unfold isWsCp at hc
  simp only [Bool.or_eq_true, Bool.and_eq_true, decide_eq_true_eq] at hc
  omega

theorem foldDiacritic_not_ws (c : Nat) (h : isWsCp c = false) :
    ∀ d ∈ foldDiacritic c, isWsCp d = false := by
  have htab : ∀ p ∈ diacriticsTable, ∀ d ∈ p.2, isWsCp d = false := by decide
  intro d hd
  unfold foldDiacritic at hd
  rcases hfind : diacriticsTable.find? (fun p => p.1 = c) with _ | p
  · rw [hfind] at hd
    rw [List.mem_singleton] at hd
    subst hd
    exact h
  · rw [hfind] at hd
    exact htab p (List.mem_of_find?_eq_some hfind) d hd

theorem foldDiacritic_ne_nil (c : Nat) : foldDiacritic c ≠ [] := by
  have htab : ∀ p ∈ diacriticsTable, p.2 ≠ [] := by decide
  unfold foldDiacritic
  rcases hfind : diacriticsTable.find? (fun p => p.1 = c) with _ | p
  · rw [hfind]
    simp
  · rw [hfind]
    exact htab p (List.mem_of_find?_eq_some hfind)

theorem toLowerChar_not_ws (c : Nat) (h : isWsCp c = false) :
    isWsCp (toLowerChar c) = false := by
  unfold toLowerChar
  split_ifs with h1 h2 h3 h4 h5 h6 h7 h8
  · simp only [Bool.and_eq_true, decide_eq_true_eq] at h1
    exact isWsCp_eq_false_of _ (by omega)
  · simp only [Bool.or_eq_true, Bool.and_eq_true, decide_eq_true_eq] at h2
    exact isWsCp_eq_false_of _ (by omega)
  · simp only [Bool.and_eq_true, decide_eq_true_eq] at h3
    exact isWsCp_eq_false_of _ (by omega)
  · simp only [Bool.and_eq_true, decide_eq_true_eq] at h4
    exact isWsCp_eq_false_of _ (by omega)
  · simp only [Bool.and_eq_true, decide_eq_true_eq] at h5
    exact isWsCp_eq_false_of _ (by omega)
  · exact isWsCp_eq_false_of _ (by omega)
  · simp only [Bool.or_eq_true, decide_eq_true_eq] at h7
    exact isWsCp_eq_false_of _ (by omega)
  · exact isWsCp_eq_false_of _ (by omega)
  · exact h

theorem splitWsGo_eq_nil_iff :
    ∀ (s cur : Str),
      splitWsGo s cur = [] ↔ (cur = [] ∧ ∀ c ∈ s, isWsCp c = true) := by
  intro s
  induction s with
  | nil =>
    intro cur
    unfold splitWsGo
    by_cases hcur : cur.isEmpty = true
    · rw [if_pos hcur]
      simp [List.isEmpty_iff.mp hcur]
    · rw [if_neg hcur]
      simp only [List.isEmpty_iff] at hcur
      simp [hcur]
  | cons c rest ih =>
    intro cur
    unfold splitWsGo
    by_cases hws : isWsCp c = true
    · rw [if_pos hws]
      by_cases hcur : cur.isEmpty = true
      · rw [if_pos hcur, ih]
        simp [List.isEmpty_iff.mp hcur, hws]
      · rw [if_neg hcur]
        simp only [List.isEmpty_iff] at hcur
        simp [hcur]
    · rw [if_neg hws]
      rw [ih]
      simp [hws]

theorem preprocessText_ne_nil (text : Str)
    (h : ∃ c ∈ text, isWsCp c = false) : preprocessText text ≠ [] := by
  obtain ⟨c, hc, hcws⟩ := h
  unfold preprocessText
  intro hnil
  rw [List.map_eq_nil_iff] at hnil
  unfold splitWs at hnil
  rw [splitWsGo_eq_nil_iff] at hnil
  obtain ⟨d, hd⟩ : ∃ d, d ∈ foldDiacritic c :=
    List.exists_mem_of_ne_nil _ (foldDiacritic_ne_nil c)
  have hdws : isWsCp d = false := foldDiacritic_not_ws c hcws d hd
  have hdmem : d ∈ removeDiacritics text := by
    unfold removeDiacritics
    rw [List.mem_flatten]
    exact ⟨foldDiacritic c, List.mem_map_of_mem foldDiacritic hc, hd⟩
  have hlmem : toLowerChar d ∈ toLowercase (removeDiacritics text) :=
    List.mem_map_of_mem toLowerChar hdmem
  have := hnil.2 (toLowerChar d) hlmem
  rw [toLowerChar_not_ws d hdws] at this
  cases this

/-- C4 (amended): whenever `by_text(q, None)` actually returns a result list
(so the query passed the whitespace guard and no token truncation panicked),
a resource id X is included iff every token of the preprocessed query,
truncated to its first MAX_NGRAM = 5 bytes, has a stored (X, token) row in
the fts table. The index is assumed well formed: resource ids are unique and
fts rows respect the foreign key into resources. -/
theorem byText_membership :
    ∀ (now : Int) (db : IndexState) (text : Str) (X : ResourceId)
      (l : List (ResourceId × Nat)),
      (db.resources.map (fun r => r.id)).Nodup →
      (∀ p ∈ db.fts, p.1 ∈ db.resources.map (fun r => r.id)) →
      byText now db text none = .ok l →
      ((∃ f, (X, f) ∈ l) ↔
        (∀ w ∈ preprocessText text, ∀ w',
          truncateWord 5 (strBytes w) = some w' → (X, w') ∈ db.fts)) := by
  intro now db text X l hnd hfk hok
  unfold byText at hok
  by_cases htrim : (trimStr text).isEmpty = true
  · rw [if_pos htrim] at hok
    cases hok
  · rw [if_neg htrim] at hok
    simp only [search] at hok
    rcases hta : truncateAll (preprocessText text) with _ | ts
    · rw [hta] at hok
      simp at hok
    · rw [hta] at hok
      simp only [QueryOutcome.ok.injEq] at hok
      subst hok
      obtain ⟨hlen, hfwd, hbwd⟩ := truncateAll_spec (preprocessText text) ts hta
      have hwords : preprocessText text ≠ [] := by
        apply preprocessText_ne_nil
        have htne : trimStr text ≠ [] := by
          intro hc
          exact htrim (by simp [hc])
        have h1 : ¬ ∀ c ∈ text, isWsCp c = true :=
          fun hall => htne ((trimStr_eq_nil_iff text).mpr hall)
        push_neg at h1
        obtain ⟨c, hc, hcw⟩ := h1
        exact ⟨c, hc, Bool.eq_false_iff.mpr hcw⟩
      have hL1 : 1 ≤ (preprocessText text).length := by
        cases hpp : preprocessText text with
        | nil => exact absurd hpp hwords
        | cons a t => simp
      set accE := ts.foldl
        (fun a w => (wordRecords now db none w).foldl bumpOne a)
        ([] : List (ResourceId × Nat × Nat)) with haccE
      have hknd := wordsFold_keys_nodup now db none hnd ts [] (by simp)
      have hmin := wordsFold_min_count now db none ts [] (by simp)
      have hcnt := countOf_wordsFold now db none hnd ts [] X
      rw [countOf_nil, Nat.zero_add] at hcnt
      have hiff1 : (∃ f, (X, f) ∈ sortByRel (fun a b => b.2 ≤ a.2)
          ((accE.filter (fun p => p.2.1 = (preprocessText text).length)).map
            (fun p => (p.1, p.2.2)))) ↔
          countOf accE X = (preprocessText text).length := by
        simp only [mem_sortByRel, List.mem_map, List.mem_filter]
        constructor
        · rintro ⟨f, p, ⟨hpacc, hplen⟩, hpx⟩
          rw [Prod.mk.injEq] at hpx
          have hfind := find?_of_mem_keys_nodup accE p hpacc hknd X hpx.1
          unfold countOf
          rw [hfind]
          simpa using hplen
        · intro hcnt'
          rcases hf : accE.find? (fun q => q.1 = X) with _ | p
          · have h0 : countOf accE X = 0 := by
              unfold countOf
              rw [hf]
            rw [h0] at hcnt'
            omega
          · have hp1 : countOf accE X = p.2.1 := by
              unfold countOf
              rw [hf]
            rw [hp1] at hcnt'
            have hx1 : p.1 = X := by simpa using List.find?_some hf
            exact ⟨p.2.2, p, ⟨List.mem_of_find?_eq_some hf, by
              simpa using hcnt'⟩,
              by rw [Prod.mk.injEq]; exact ⟨hx1, rfl⟩⟩
      have hiff2 : countOf accE X = (preprocessText text).length ↔
          ∀ t ∈ ts, wordMatches now db none X t = true := by
        rw [hcnt]
        constructor
        · intro h
          have hfl : (ts.filter (fun w => wordMatches now db none X w)).length =
              ts.length := by
            rw [h, hlen]
          exact fun t ht => List.filter_length_eq_length.mp hfl t ht
        · intro h
          rw [List.filter_length_eq_length.mpr h, hlen]
      have hiff3 : (∀ t ∈ ts, wordMatches now db none X t = true) ↔
          ∀ t ∈ ts, (X, t) ∈ db.fts := by
        constructor
        · intro h t ht
          exact ((wordMatches_none_iff now db X t).mp (h t ht)).2
        · intro h t ht
          refine (wordMatches_none_iff now db X t).mpr ⟨?_, h t ht⟩
          have hin := hfk (X, t) (h t ht)
          rcases List.mem_map.mp hin with ⟨r, hr, hrid⟩
          exact ⟨r, hr, hrid⟩
      have hiff4 : (∀ t ∈ ts, (X, t) ∈ db.fts) ↔
          (∀ w ∈ preprocessText text, ∀ w',
            truncateWord 5 (strBytes w) = some w' → (X, w') ∈ db.fts) := by
        constructor
        · intro h w hw w' hw'
          obtain ⟨t, ht, htw⟩ := hfwd w hw
          rw [hw'] at htw
          injection htw with htw
          rw [htw]
          exact h t ht
        · intro h t ht
          obtain ⟨w, hw, hwt⟩ := hbwd t ht
          exact h w hw t hwt
      exact hiff1.trans (hiff2.trans (hiff3.trans hiff4))

/-- Concrete instantiation of the C4 theorem: on `ftsDb` (fts rows stored for
the root and the text "root") the query "ro" returns exactly the root id with
frecency 0, and the membership equivalence holds with both sides true. -/
theorem byText_membership_witness :
    (ftsDb.resources.map (fun r => r.id)).Nodup ∧
    (∀ p ∈ ftsDb.fts, p.1 ∈ ftsDb.resources.map (fun r => r.id)) ∧
    byText 0 ftsDb (strOfString "ro") none = QueryOutcome.ok [(rootId, 0)] ∧
    ((∃ f, (rootId, f) ∈ [((rootId : ResourceId), (0 : Nat))]) ↔
      (∀ w ∈ preprocessText (strOfString "ro"), ∀ w',
        truncateWord 5 (strBytes w) = some w' → (rootId, w') ∈ ftsDb.fts)) := by
  refine ⟨by decide, by decide, by decide,
    byText_membership 0 ftsDb (strOfString "ro") rootId [(rootId, 0)]
      (by decide) (by decide) (by decide)⟩

/-- C4 counterexample to the claim as stated: the query " " is a non-empty
string and the token condition for the root id holds vacuously (the
preprocessed query has no tokens), yet `by_text` returns the Custom error and
no result list at all; moreover a token whose fifth byte cuts a code point
makes `by_text` panic instead of truncating to MAX_NGRAM. -/
theorem byText_whitespace_query_no_result :
    byText 0 rootOnlyDb [32] none =
      QueryOutcome.failed (StoreError.custom "EmptyTextQuery") ∧
    preprocessText [32] = [] ∧
    byText 0 ftsDb [97, 97, 97, 97, 0x153] none = QueryOutcome.panicked := by
  refine ⟨by decide, by decide, by decide⟩

/-- C6 (amended): for an all-ASCII input the stored n-gram set is exactly the
distinct substrings of byte length one to MAX_NGRAM = 5 of each preprocessed
token, enumerated over the full token even beyond the first five bytes. Query
tokens longer than five bytes are truncated to their first five bytes when
byte 5 is a char boundary and panic otherwise. On a non-ASCII token an
invalid UTF-8 cut aborts the remaining positions at that substring length
(see the counterexample), so some valid substrings may be missing. -/
theorem ngrams_stored_set :
    (∀ (text : Str), (∀ ch ∈ text, ch < 0x80) →
      ∀ s, s ∈ ngrams text 5 ↔
        ∃ w ∈ preprocessText text, s ≠ [] ∧ s.length ≤ 5 ∧ s <:+: w) ∧
    (∀ w : List Nat, 5 < w.length → isCharBoundary w 5 = true →
      truncateWord 5 w = some (w.take 5)) ∧
    (∀ w : List Nat, 5 < w.length → isCharBoundary w 5 = false →
      truncateWord 5 w = none) := by
  refine ⟨?_, ?_, ?_⟩
  · intro text hA s
    have htok : ∀ w ∈ preprocessText text, ∀ ch ∈ w, ch < 0x80 := by
      intro w hw ch hch
      exact preprocess_ascii text hA w hw ch hch
    obtain ⟨_, h2⟩ := ngramsFold_ascii (preprocessText text) htok ([], []) (by simp)
    unfold ngrams
    rw [h2 s]
    simp only [List.not_mem_nil, false_or]
    constructor
    · rintro ⟨w, hw, hrest⟩
      exact ⟨w, hw, (substring_infix_iff w s).mp hrest⟩
    · rintro ⟨w, hw, hs⟩
      exact ⟨w, hw, (substring_infix_iff w s).mpr hs⟩
  · intro w h5 hb
    unfold truncateWord
    rw [if_pos (by simpa using h5), if_pos hb]
  · intro w h5 hb
    unfold truncateWord
    rw [if_pos (by simpa using h5), if_neg (by simp [hb])]

/-- Witness for C6's amended theorem: the three-byte substring `bcd` of the
token `abcdef` is stored, and a six-byte ASCII token truncates to its first
five bytes. -/
theorem ngrams_stored_set_witness :
    (strOfString "bcd" ∈ ngrams (strOfString "abcdef") 5 ↔
      ∃ w ∈ preprocessText (strOfString "abcdef"),
        strOfString "bcd" ≠ [] ∧ (strOfString "bcd").length ≤ 5 ∧
        strOfString "bcd" <:+: w) ∧
    truncateWord 5 (strOfString "abcdef") = some (strOfString "abcde") :=
  ⟨ngrams_stored_set.1 (strOfString "abcdef") (by decide) (strOfString "bcd"),
   (ngrams_stored_set.2.1 (strOfString "abcdef") (by decide) (by decide)).trans
     (by decide)⟩

/-- C6 (counterexample to the claim as stated): in the token `lœl` the
two-byte substring `œ` (bytes 197, 147) is a valid UTF-8 substring, yet no
length-2 n-gram is stored at all because the invalid cut at position 0 breaks
the position loop instead of skipping; and the five-character token `aaaaœ`
panics on truncation (six bytes, byte 5 mid-code-point) instead of being
truncated to five characters. -/
theorem ngrams_break_counterexample :
    preprocessText (strOfString "lœl") = [strOfString "lœl"] ∧
    strBytes (strOfString "lœl") = [108, 197, 147, 108] ∧
    strGet [108, 197, 147, 108] 1 2 = some [197, 147] ∧
    [197, 147] ∉ ngrams (strOfString "lœl") 5 ∧
    ngrams (strOfString "lœl") 5 =
      [[108], [108, 197, 147], [197, 147, 108], [108, 197, 147, 108]] ∧
    (strOfString "aaaaœ").length = 5 ∧
    truncateWord 5 (strBytes (strOfString "aaaaœ")) = none := by
  decide

theorem getFullPathGo_success
    (store : List (ResourceId × ResourceMetadata)) (c : Nat → ResourceId)
    (mt : Nat → ResourceMetadata) (n : Nat)
    (hl : ∀ i, i ≤ n → lookupMeta store (c i) = some (mt i))
    (hp : ∀ i, i < n → c (i + 1) = (mt i).parent)
    (hnr : ∀ i, i < n → isRoot (c i) = false)
    (hroot : isRoot (c n) = true)
    (hinj : ∀ i j, i ≤ n → j ≤ n → c i = c j → i = j) :
    ∀ p, p ≤ n → ∀ (visited : List ResourceId) (res : List ResourceMetadata)
      (nd : visited.Nodup) (sub : ∀ x ∈ visited, x ∈ store.map Prod.fst),
      visited = ((List.range p).map c).reverse →
      res = (List.range p).map mt →
      getFullPathGo store (c p) visited res nd sub =
        .ok (((List.range (n + 1)).map mt).reverse) := by
  suffices H : ∀ d p, p ≤ n → n - p = d →
      ∀ visited res nd sub,
        visited = ((List.range p).map c).reverse →
        res = (List.range p).map mt →
        getFullPathGo store (c p) visited res nd sub =
          .ok (((List.range (n + 1)).map mt).reverse) by
    intro p hpn visited res nd sub hv hr
    exact H (n - p) p hpn rfl visited res nd sub hv hr
  intro d
  induction d with
  | zero =>
    intro p hpn hd visited res nd sub hv hr
    have hpn' : p = n := by omega
    subst hpn'
    subst hv
    subst hr
    have hnm : c p ∉ ((List.range p).map c).reverse := by
      simp only [List.mem_reverse, List.mem_map, List.mem_range]
      rintro ⟨i, hi, hci⟩
      have := hinj i p (by omega) (by omega) hci
      omega
    unfold getFullPathGo
    rw [dif_neg hnm]
    split
    · rename_i hm
      rw [hl p le_rfl] at hm
      cases hm
    · rename_i meta hm
      rw [hl p le_rfl] at hm
      injection hm with hm
      subst hm
      simp [hroot, List.range_succ]
  | succ d ih =>
    intro p hpn hd visited res nd sub hv hr
    have hplt : p < n := by omega
    subst hv
    subst hr
    have hnm : c p ∉ ((List.range p).map c).reverse := by
      simp only [List.mem_reverse, List.mem_map, List.mem_range]
      rintro ⟨i, hi, hci⟩
      have := hinj i p (by omega) (by omega) hci
      omega
    unfold getFullPathGo
    rw [dif_neg hnm]
    split
    · rename_i hm
      rw [hl p (le_of_lt hplt)] at hm
      cases hm
    · rename_i meta hm
      rw [hl p (le_of_lt hplt)] at hm
      injection hm with hm
      subst hm
      rw [hnr p hplt]
      simp only [Bool.false_eq_true, if_false]
      rw [show (mt p).parent = c (p + 1) from (hp p hplt).symm]
      exact ih (p + 1) (by omega) (by omega) _ _ _ _
        (by simp [List.range_succ]) (by simp [List.range_succ])

theorem getFullPathGo_cycle
    (store : List (ResourceId × ResourceMetadata)) (c : Nat → ResourceId)
    (mt : Nat → ResourceMetadata) (k j : Nat)
    (hjk : j < k)
    (hl : ∀ i, i < k → lookupMeta store (c i) = some (mt i))
    (hp : ∀ i, i < k → c (i + 1) = (mt i).parent)
    (hnr : ∀ i, i < k → isRoot (c i) = false)
    (hck : c k = c j)
    (hdist : ∀ i i', i < i' → i' < k → c i ≠ c i') :
    ∀ p, p ≤ k → ∀ (visited : List ResourceId) (res : List ResourceMetadata)
      (nd : visited.Nodup) (sub : ∀ x ∈ visited, x ∈ store.map Prod.fst),
      visited = ((List.range p).map c).reverse →
      res = (List.range p).map mt →
      getFullPathGo store (c p) visited res nd sub = .error .resourceCycle := by
  suffices H : ∀ d p, p ≤ k → k - p = d →
      ∀ visited res nd sub,
        visited = ((List.range p).map c).reverse →
        res = (List.range p).map mt →
        getFullPathGo store (c p) visited res nd sub = .error .resourceCycle by
    intro p hpk visited res nd sub hv hr
    exact H (k - p) p hpk rfl visited res nd sub hv hr
  intro d
  induction d with
  | zero =>
    intro p hpk hd visited res nd sub hv hr
    have hpk' : p = k := by omega
    subst hpk'
    subst hv
    subst hr
    have hm : c p ∈ ((List.range p).map c).reverse := by
      simp only [List.mem_reverse, List.mem_map, List.mem_range]
      exact ⟨j, hjk, hck.symm⟩
    unfold getFullPathGo
    rw [dif_pos hm]
  | succ d ih =>
    intro p hpk hd visited res nd sub hv hr
    have hplt : p < k := by omega
    subst hv
    subst hr
    have hnm : c p ∉ ((List.range p).map c).reverse := by
      simp only [List.mem_reverse, List.mem_map, List.mem_range]
      rintro ⟨i, hi, hci⟩
      exact hdist i p hi hplt hci
    unfold getFullPathGo
    rw [dif_neg hnm]
    split
    · rename_i hm
      rw [hl p hplt] at hm
      cases hm
    · rename_i meta hm
      rw [hl p hplt] at hm
      injection hm with hm
      subst hm
      rw [hnr p hplt]
      simp only [Bool.false_eq_true, if_false]
      rw [show (mt p).parent = c (p + 1) from (hp p hplt).symm]
      exact ih (p + 1) (by omega) (by omega) _ _ _ _
        (by simp [List.range_succ]) (by simp [List.range_succ])

/-- C5: `get_full_path(id)` walks parent links upward from `id` (metadata
resolved per id along the chain): when the chain reaches the root without
revisiting any node it returns the metadata list ordered root first, target
last; and whenever the chain revisits a node while still below the root it
fails with `ResourceCycle`. -/
theorem getFullPath_walks_parents :
    (∀ (store : List (ResourceId × ResourceMetadata)) (c : Nat → ResourceId)
       (mt : Nat → ResourceMetadata) (n : Nat),
      (∀ i, i ≤ n → lookupMeta store (c i) = some (mt i)) →
      (∀ i, i < n → c (i + 1) = (mt i).parent) →
      (∀ i, i < n → isRoot (c i) = false) →
      isRoot (c n) = true →
      (∀ i j, i ≤ n → j ≤ n → c i = c j → i = j) →
      getFullPath store (c 0) = .ok (((List.range (n + 1)).map mt).reverse)) ∧
    (∀ (store : List (ResourceId × ResourceMetadata)) (c : Nat → ResourceId)
       (mt : Nat → ResourceMetadata) (j k : Nat),
      j < k →
      (∀ i, i < k → lookupMeta store (c i) = some (mt i)) →
      (∀ i, i < k → c (i + 1) = (mt i).parent) →
      (∀ i, i < k → isRoot (c i) = false) →
      c k = c j →
      getFullPath store (c 0) = .error .resourceCycle) := by
  constructor
  · intro store c mt n hl hp hnr hroot hinj
    unfold getFullPath
    exact getFullPathGo_success store c mt n hl hp hnr hroot hinj 0
      (Nat.zero_le n) [] [] List.nodup_nil (by intro x hx; cases hx)
      (by simp) (by simp)
  · intro store c mt j k hjk hl hp hnr hck
    classical
    have hex : ∃ k', ∃ j' < k', c j' = c k' := ⟨k, j, hjk, hck.symm⟩
    set k₀ := Nat.find hex with hk₀
    obtain ⟨j₀, hj₀k₀, hcj₀⟩ := Nat.find_spec hex
    have hk₀le : k₀ ≤ k := Nat.find_min' hex ⟨j, hjk, hck.symm⟩
    have hdist : ∀ i i', i < i' → i' < k₀ → c i ≠ c i' := by
      intro i i' hii' hi'k₀ hci
      exact Nat.find_min hex hi'k₀ ⟨i, hii', hci⟩
    unfold getFullPath
    exact getFullPathGo_cycle store c mt k₀ j₀ hj₀k₀
      (fun i hi => hl i (lt_of_lt_of_le hi hk₀le))
      (fun i hi => hp i (lt_of_lt_of_le hi hk₀le))
      (fun i hi => hnr i (lt_of_lt_of_le hi hk₀le))
      hcj₀.symm hdist 0 (Nat.zero_le k₀) [] [] List.nodup_nil
      (by intro x hx; cases hx) (by simp) (by simp)

/-- Witness for C5 at a two-node store: the walk from `id-a` returns the
root-first path. -/
theorem getFullPath_walks_parents_witness :
    getFullPath walkStore (walkC 0) = .ok [walkRootMeta, walkLeafMeta] :=
  (getFullPath_walks_parents.1 walkStore walkC walkMt 1
    (by intro i hi; interval_cases i <;> decide)
    (by intro i hi; interval_cases i; decide)
    (by intro i hi; interval_cases i; decide)
    (by decide)
    (by
      intro i j hi hj hc
      interval_cases i <;> interval_cases j <;>
        first
          | rfl
          | exact absurd hc (by decide))).trans (by decide)

theorem frecency_formula_overflow_counterexample :
    Scorer.frecency 0 ⟨4294967295, [⟨0, .normal⟩]⟩ = 4294967196 ∧
    4294967295 * (roundHalfUp (specSum 0 ⟨4294967295, [⟨0, .normal⟩]⟩)).toNat /
      ([⟨(0 : Int), VisitPriority.normal⟩] : List VisitEntry).length = 429496729500 ∧
    (4294967196 : Nat) ≠ 429496729500 := by
  refine ⟨by decide, ?_, by decide⟩
  rw [specSum_eq_natSum, roundHalfUp_natCast, Int.toNat_natCast]
  decide

end Costaeres
